import Mathlib

/-!
Verification of the tile-region extraction and boundary-contour tracing
algorithm of `src/src/game/floodfill.rs` (with the `Tile` classification
from `src/src/game.rs`).

The Rust code is shallowly embedded:

* `usize` values are modelled as `Nat`; the wrapping subtraction
  `x.wrapping_sub(1)` and the `as i32` / `as usize` casts of the source are
  modelled explicitly modulo `2 ^ 64` and `2 ^ 32` (release semantics,
  i.e. wrap-around rather than the debug overflow abort).
* `HashSet<(usize, usize)>` becomes `Finset (Nat × Nat)`; `Vec` used as a
  stack (push and pop at the end) becomes a `List` whose head is the top.
* The `loop` of `get_verts` and the `while let` of `fill` become
  fuel-indexed structural recursions; the `panic!` / `unreachable!` arms
  (and an out-of-bounds `verts[0]`) become the `panicked` result, and fuel
  exhaustion becomes `fuelOut`.  Termination of `fill` is proved separately
  (`fill_loop_total`), so its wrapper `fill` is total with the proved-
  sufficient fuel `fillFuel`.
* The grid argument `&Vec<[Tile; 1000]>` becomes a total function
  `Nat → Nat → Tile`; the source indexes it as `tiles[y][x]`, which the
  scan only ever does for `x, y < 1000`.
-/

set_option maxRecDepth 4000
set_option linter.constructorNameAsVariable false

namespace Deeper

/-- The tile classification of `src/src/game.rs`. -/
inductive Tile
  | Error
  | Rock
  | Ice
  | Oil
  | Iron
  | Air
  | Wall
  | Sulfur
  | Coal
deriving DecidableEq, Repr

/-- Solidity of a tile, from `impl Tile` in `src/src/game.rs`. -/
def Tile.is_solid : Tile → Bool
  | .Error | .Sulfur | .Coal | .Rock | .Ice | .Oil | .Iron => true
  | .Air | .Wall => false

/-- `type Point = (usize, usize)`. -/
abbrev Point := Nat × Nat

/-- `type Dir = (i32, i32)`. -/
abbrev Dir := Int × Int

/-- Number of values of `usize` (64-bit). -/
def USIZE_CARD : Nat := 2 ^ 64

/-- Largest `usize` value, the result of `(0 : usize).wrapping_sub(1)`. -/
def USIZE_MAX : Nat := 2 ^ 64 - 1

/-- `x.wrapping_sub(1)` on `usize`. -/
def wsub (x : Nat) : Nat := (x + (2 ^ 64 - 1)) % 2 ^ 64

/-- Reinterpret a `usize` as an `i32` (`as i32`: truncate to 32 bits, then
read as two's complement). -/
def usizeToI32 (x : Nat) : Int := Int.bmod (x : Int) (2 ^ 32)

/-- Reinterpret an `i32` as a `usize` (`as usize`: sign-extend to 64 bits,
then read as unsigned). -/
def i32ToUsize (i : Int) : Nat := (i % (2 ^ 64 : Int)).toNat

/-- The closure `add_dir` of `get_verts`:
`|a, b| ((a.0 as i32 + b.0) as usize, (a.1 as i32 + b.1) as usize)`.
The `i32` addition is modelled wrapping (release semantics). -/
def add_dir (a : Point) (b : Dir) : Point :=
  (i32ToUsize (Int.bmod (usizeToI32 a.1 + b.1) (2 ^ 32)),
   i32ToUsize (Int.bmod (usizeToI32 a.2 + b.2) (2 ^ 32)))

/-- The closure `modify` of `get_verts`, mapping a lattice corner and a
travel direction to the grid cell whose solidity is tested; the
`unreachable!` arm is `none`. -/
def modify (p : Point) (d : Dir) : Option Point :=
  if d = (1, 0) then some p
  else if d = (0, 1) then some (wsub p.1, p.2)
  else if d = (-1, 0) then some (wsub p.1, wsub p.2)
  else if d = (0, -1) then some (p.1, wsub p.2)
  else none

/-- The closure `left` of `get_verts` (counter-clockwise turn); the
`panic!` arm is `none`. -/
def leftTurn (d : Dir) : Option Dir :=
  if d = (1, 0) then some (0, -1)
  else if d = (0, -1) then some (-1, 0)
  else if d = (-1, 0) then some (0, 1)
  else if d = (0, 1) then some (1, 0)
  else none

/-- The closure `right` of `get_verts` (clockwise turn); the `panic!` arm
is `none`. -/
def rightTurn (d : Dir) : Option Dir :=
  if d = (1, 0) then some (0, 1)
  else if d = (0, 1) then some (-1, 0)
  else if d = (-1, 0) then some (0, -1)
  else if d = (0, -1) then some (1, 0)
  else none

/-- `pub struct Region`. -/
structure Region where
  start : Point
  members : Finset Point
deriving DecidableEq

/-- The closure `is_solid` of `get_verts`:
`|p, dir| region.members.contains(&modify(p, dir))`; `none` propagates a
panic of `modify`. -/
def solidAt (members : Finset Point) (p : Point) (d : Dir) : Option Bool :=
  (modify p d).map fun q => decide (q ∈ members)

/-- One decision of the `get_verts` loop after the move to corner `cur`:
the left test, the straight-ahead test, and the right turn, in source
order.  Returns the new direction and whether a vertex is recorded;
`none` is a panic. -/
def walk_decide (members : Finset Point) (cur : Point) (d : Dir) :
    Option (Dir × Bool) :=
  match leftTurn d with
  | none => none
  | some ld =>
    match solidAt members cur ld with
    | none => none
    | some true => some (ld, true)
    | some false =>
      match solidAt members cur d with
      | none => none
      | some true => some (d, false)
      | some false => (rightTurn d).map fun rd => (rd, true)

/-- The mutable state of the `get_verts` loop. -/
structure WalkState where
  cur : Point
  dir : Dir
  verts : List Point
deriving DecidableEq

/-- One full iteration of the `get_verts` loop apart from the break test:
advance one lattice unit, then decide, pushing the new corner as a vertex
exactly when the decision says so. -/
def walkStep (members : Finset Point) (s : WalkState) : Option WalkState :=
  let cur' := add_dir s.cur s.dir
  (walk_decide members cur' s.dir).map fun de =>
    ⟨cur', de.1, if de.2 then s.verts ++ [cur'] else s.verts⟩

/-- Result of running the `get_verts` loop with finite fuel. -/
inductive TraceResult
  | done (verts : List Point)
  | panicked
  | fuelOut
deriving DecidableEq, Repr

/-- The `loop` of `get_verts`: break when the current corner equals
`verts[0]` and more than one vertex is recorded, otherwise perform one
`walkStep`. -/
def get_verts_loop (members : Finset Point) : Nat → WalkState → TraceResult
  | 0, _ => .fuelOut
  | fuel + 1, s =>
    match s.verts with
    | [] => .panicked
    | v0 :: _ =>
      if s.cur = v0 ∧ 1 < s.verts.length then .done s.verts
      else
        match walkStep members s with
        | none => .panicked
        | some s' => get_verts_loop members fuel s'

/-- `pub fn get_verts(region: &Region) -> Vec<(usize, usize)>`, with fuel:
start at the top-left lattice corner of the start cell (which has the same
coordinates as the cell), heading East, with the start corner as the first
recorded vertex. -/
def get_verts (fuel : Nat) (r : Region) : TraceResult :=
  get_verts_loop r.members fuel ⟨r.start, (1, 0), [r.start]⟩

/-- `pub struct Floodfill`. -/
structure Floodfill where
  regions : List Region

/-- The closure `lookup` of `floodfill_all` and `fill`: `tiles[y][x]`. -/
def lookup (tiles : Nat → Nat → Tile) (p : Point) : Tile := tiles p.2 p.1

/-- `fn neighbors`: the up-to-four axis-aligned neighbours, pushed in
source order and clamped to the 1000-wide grid. -/
def neighbors (p : Point) : List Point :=
  (if p.1 ≠ 0 then [(p.1 - 1, p.2)] else []) ++
  (if p.1 ≠ 999 then [(p.1 + 1, p.2)] else []) ++
  (if p.2 ≠ 0 then [(p.1, p.2 - 1)] else []) ++
  (if p.2 ≠ 999 then [(p.1, p.2 + 1)] else [])

/-- The `while let Some(p) = to_check.pop()` loop of `fn fill`, with fuel.
The stack is a list with its head as the top; pushing the unvisited solid
neighbours one by one onto the top is prepending their reversal. -/
def fill_loop (tiles : Nat → Nat → Tile) :
    Nat → List Point → Finset Point → Option (Finset Point)
  | _, [], visited => some visited
  | 0, _ :: _, _ => none
  | fuel + 1, p :: rest, visited =>
    let visited' := insert p visited
    let pushed := (neighbors p).filter
      fun q => q ∉ visited' ∧ (lookup tiles q).is_solid
    fill_loop tiles fuel (pushed.reverse ++ rest) visited'

/-- Fuel that `fill_loop_total` proves sufficient for any start cell of
the 1000 by 1000 grid. -/
def fillFuel : Nat := 9000100

/-- `fn fill(start, tiles) -> Region`. -/
def fill (start : Point) (tiles : Nat → Nat → Tile) : Region :=
  ⟨start, (fill_loop tiles fillFuel [start] ∅).getD ∅⟩

/-- The scan order of `floodfill_all`: outer loop over `x`, inner loop
over `y`, both ascending over `0..1000`. -/
def scanPoints : List Point :=
  (List.range 1000).flatMap fun x => (List.range 1000).map fun y => (x, y)

/-- One step of the `floodfill_all` scan: a solid cell not contained in
any already discovered region seeds a new `fill`. -/
def scan_step (tiles : Nat → Nat → Tile) (regions : List Region) (p : Point) :
    List Region :=
  if (lookup tiles p).is_solid = true ∧ ∀ r ∈ regions, p ∉ r.members then
    regions ++ [fill p tiles]
  else regions

/-- `pub fn floodfill_all(tiles) -> Floodfill`. -/
def floodfill_all (tiles : Nat → Nat → Tile) : Floodfill :=
  ⟨scanPoints.foldl (scan_step tiles) []⟩

/-! ## Specification-side relations -/

/-- The 1000 by 1000 grid as a finite set of cells. -/
def gridPts : Finset Point := Finset.range 1000 ×ˢ Finset.range 1000

lemma mem_gridPts {p : Point} : p ∈ gridPts ↔ p.1 < 1000 ∧ p.2 < 1000 := by
  obtain ⟨x, y⟩ := p
  simp [gridPts, Finset.mem_product]

lemma gridPts_card : gridPts.card = 1000000 := by
  rw [gridPts, Finset.card_product, Finset.card_range]

-- Keep the elaborator from ever expanding the million-element grid set.
attribute [irreducible] gridPts

/-- One step of the flood fill reachability: `b` is an in-bounds neighbour
of `a` and is solid. -/
def FillStep (tiles : Nat → Nat → Tile) (a b : Point) : Prop :=
  b ∈ neighbors a ∧ (lookup tiles b).is_solid = true

/-- Reachability through solid cells, as explored by `fill`. -/
def CanReach (tiles : Nat → Nat → Tile) (a b : Point) : Prop :=
  Relation.ReflTransGen (FillStep tiles) a b

/-- Plain 4-connectivity of two cells (they share an edge). -/
def Adj (a b : Point) : Prop :=
  (a.1 = b.1 ∧ (a.2 + 1 = b.2 ∨ b.2 + 1 = a.2)) ∨
  (a.2 = b.2 ∧ (a.1 + 1 = b.1 ∨ b.1 + 1 = a.1))

/-- A path from `a` to `b` along 4-connected cells that all belong to the
set `S` (given that `a` itself does). -/
def PathWithin (S : Finset Point) (a b : Point) : Prop :=
  Relation.ReflTransGen (fun u v => v ∈ S ∧ Adj u v) a b

/-- The membership set is 4-connected. -/
def Connected4 (S : Finset Point) : Prop :=
  ∀ a ∈ S, ∀ b ∈ S, PathWithin S a b

/-- Scan order on cells: the `floodfill_all` scan visits `a` no later
than `b`. -/
def lexLE (a b : Point) : Prop := a.1 < b.1 ∨ (a.1 = b.1 ∧ a.2 ≤ b.2)

/-- The four unit direction vectors of the contour walk. -/
def UnitDir (d : Dir) : Prop :=
  d = (1, 0) ∨ d = (0, 1) ∨ d = (-1, 0) ∨ d = (0, -1)

instance (d : Dir) : Decidable (UnitDir d) := by
  unfold UnitDir
  infer_instance

/-! ## Termination of the fill loop -/

/-- Weight of the top of the fill stack: four when it is already
visited. -/
def topWeight (s : List Point) (v : Finset Point) : Nat :=
  match s with
  | [] => 0
  | p :: _ => if p ∈ v then 4 else 0

/-- Decreasing measure for `fill_loop`: unvisited grid cells weigh nine,
stack entries one, and a visited cell on top of the stack four. -/
def fillMeasure (s : List Point) (v : Finset Point) : Nat :=
  9 * (gridPts \ v).card + s.length + topWeight s v

lemma topWeight_nil (v : Finset Point) : topWeight [] v = 0 := rfl

lemma topWeight_cons (p : Point) (tl : List Point) (v : Finset Point) :
    topWeight (p :: tl) v = if p ∈ v then 4 else 0 := rfl

lemma topWeight_le (s : List Point) (v : Finset Point) : topWeight s v ≤ 4 := by
  rcases s with _ | ⟨p, tl⟩
  · rw [topWeight_nil]; omega
  · rw [topWeight_cons]; split <;> omega

lemma mem_neighbors {p q : Point} :
    q ∈ neighbors p ↔
      (p.1 ≠ 0 ∧ q = (p.1 - 1, p.2)) ∨ (p.1 ≠ 999 ∧ q = (p.1 + 1, p.2)) ∨
      (p.2 ≠ 0 ∧ q = (p.1, p.2 - 1)) ∨ (p.2 ≠ 999 ∧ q = (p.1, p.2 + 1)) := by
  unfold neighbors
  by_cases h1 : p.1 = 0 <;> by_cases h2 : p.1 = 999 <;>
    by_cases h3 : p.2 = 0 <;> by_cases h4 : p.2 = 999 <;>
    simp [h1, h2, h3, h4]

lemma neighbors_length_le (p : Point) : (neighbors p).length ≤ 4 := by
  unfold neighbors
  split <;> split <;> split <;> split <;> simp

lemma neighbors_mem_grid {p q : Point} (hp : p ∈ gridPts)
    (hq : q ∈ neighbors p) : q ∈ gridPts := by
  rw [mem_gridPts] at hp ⊢
  rcases mem_neighbors.mp hq with ⟨h, rfl⟩ | ⟨h, rfl⟩ | ⟨h, rfl⟩ | ⟨h, rfl⟩ <;>
    constructor <;> simp <;> omega

/-- The fill measure strictly decreases across one loop iteration, for any
pushed list of at most four cells that are all unvisited afterwards. -/
lemma fillMeasure_step (P rest : List Point) (p : Point) (v : Finset Point)
    (hp : p ∈ gridPts) (hlen : P.length ≤ 4)
    (hunvis : ∀ q ∈ P, q ∉ insert p v) :
    fillMeasure (P.reverse ++ rest) (insert p v) + 1 ≤ fillMeasure (p :: rest) v := by
  by_cases hpv : p ∈ v
  · have hvsame : insert p v = v := Finset.insert_eq_self.mpr hpv
    rw [hvsame] at hunvis ⊢
    rcases hPrev : P.reverse with _ | ⟨q, tl⟩
    · simp only [fillMeasure, List.nil_append, List.length_cons,
        topWeight_cons, if_pos hpv]
      have h2 := topWeight_le rest v
      omega
    · have hq : q ∈ P := List.mem_reverse.mp (by rw [hPrev]; simp)
      have hqv : q ∉ v := hunvis q hq
      have h3 : tl.length + 1 = P.length := by
        have := congrArg List.length hPrev
        simp only [List.length_reverse, List.length_cons] at this
        omega
      simp only [fillMeasure, List.cons_append, List.length_cons,
        List.length_append, topWeight_cons, if_pos hpv, if_neg hqv]
      omega
  · have hmem : p ∈ gridPts \ v := Finset.mem_sdiff.mpr ⟨hp, hpv⟩
    have hcard : (gridPts \ insert p v).card + 1 = (gridPts \ v).card := by
      have he : gridPts \ insert p v = (gridPts \ v).erase p := by
        ext q
        simp only [Finset.mem_sdiff, Finset.mem_insert, Finset.mem_erase]
        tauto
      rw [he, Finset.card_erase_of_mem hmem]
      have : 0 < (gridPts \ v).card := Finset.card_pos.mpr ⟨p, hmem⟩
      omega
    have h2 := topWeight_le (P.reverse ++ rest) (insert p v)
    simp only [fillMeasure, List.length_cons, List.length_append,
      List.length_reverse, topWeight_cons, if_neg hpv]
    omega

lemma fill_loop_total (tiles : Nat → Nat → Tile) :
    ∀ fuel s v, (∀ p ∈ s, p ∈ gridPts) → fillMeasure s v < fuel →
      (fill_loop tiles fuel s v).isSome := by
  intro fuel
  induction fuel with
  | zero => intro s v _ h; omega
  | succ n ih =>
    intro s v hgrid hm
    match s with
    | [] => simp [fill_loop]
    | p :: rest =>
      rw [fill_loop]
      apply ih
      · intro q hq
        rcases List.mem_append.mp hq with hq | hq
        · exact neighbors_mem_grid (hgrid p (by simp))
            (List.mem_of_mem_filter (List.mem_reverse.mp hq))
        · exact hgrid q (by simp [hq])
      · have hstep := fillMeasure_step
          ((neighbors p).filter fun q => decide (q ∉ insert p v ∧ (lookup tiles q).is_solid = true))
          rest p v (hgrid p (by simp))
          (le_trans (List.length_filter_le _ _) (neighbors_length_le p))
          (by
            intro q hq
            have := List.of_mem_filter hq
            simp only [decide_eq_true_eq] at this
            exact this.1)
        omega

/-! ## Correctness of the fill loop -/

lemma mem_neighbors_symm {p q : Point} (hp : p ∈ gridPts)
    (hq : q ∈ neighbors p) : p ∈ neighbors q := by
  rw [mem_gridPts] at hp
  obtain ⟨x, y⟩ := p
  rcases mem_neighbors.mp hq with ⟨h, rfl⟩ | ⟨h, rfl⟩ | ⟨h, rfl⟩ | ⟨h, rfl⟩ <;>
    rw [mem_neighbors] <;> dsimp only at h hp ⊢
  · right; left
    constructor
    · omega
    · have : x - 1 + 1 = x := by omega
      rw [this]
  · left
    constructor
    · omega
    · have : x + 1 - 1 = x := by omega
      rw [this]
  · right; right; right
    constructor
    · omega
    · have : y - 1 + 1 = y := by omega
      rw [this]
  · right; right; left
    constructor
    · omega
    · have : y + 1 - 1 = y := by omega
      rw [this]

lemma canReach_in_grid {tiles : Nat → Nat → Tile} {p q : Point}
    (hp : p ∈ gridPts) (h : CanReach tiles p q) : q ∈ gridPts := by
  induction h with
  | refl => exact hp
  | tail _ st ih => exact neighbors_mem_grid ih st.1

lemma canReach_solid {tiles : Nat → Nat → Tile} {p q : Point}
    (h : CanReach tiles p q) :
    q = p ∨ (lookup tiles q).is_solid = true := by
  induction h with
  | refl => left; rfl
  | tail _ st _ => right; exact st.2

/-- Reversal of a reachability chain whose source is a solid in-grid cell. -/
lemma canReach_symm {tiles : Nat → Nat → Tile} {p q : Point}
    (hp : p ∈ gridPts) (hsolid : (lookup tiles p).is_solid = true)
    (h : CanReach tiles p q) : CanReach tiles q p := by
  induction h with
  | refl => exact Relation.ReflTransGen.refl
  | @tail b c hb st ih =>
    have hbg : b ∈ gridPts := canReach_in_grid hp hb
    have hbsolid : (lookup tiles b).is_solid = true := by
      rcases canReach_solid hb with rfl | hs
      · exact hsolid
      · exact hs
    exact Relation.ReflTransGen.head ⟨mem_neighbors_symm hbg st.1, hbsolid⟩ ih

lemma canReach_trans {tiles : Nat → Nat → Tile} {p q c : Point}
    (hp : p ∈ gridPts) (hsp : (lookup tiles p).is_solid = true)
    (h1 : CanReach tiles p c) (h2 : CanReach tiles q c) :
    CanReach tiles q p :=
  Relation.ReflTransGen.trans h2 (canReach_symm hp hsp h1)

/-- Main loop invariant of `fill_loop`: every cell on the stack or already
visited is reachable, every visited cell has its solid neighbours on the
stack or visited, and the loop only ever grows the visited set.  On
successful return, the result is exactly the cells reachable from `start`
(given that everything started from the singleton stack). -/
lemma fill_loop_spec (tiles : Nat → Nat → Tile) (start : Point) :
    ∀ fuel s v out, fill_loop tiles fuel s v = some out →
      (∀ c ∈ s, CanReach tiles start c) →
      (∀ c ∈ v, CanReach tiles start c) →
      (∀ c ∈ v, ∀ q, FillStep tiles c q → q ∈ v ∨ q ∈ s) →
      (∀ c ∈ out, CanReach tiles start c) ∧
      (∀ c ∈ out, ∀ q, FillStep tiles c q → q ∈ out) ∧
      (∀ c ∈ v, c ∈ out) ∧ (∀ c ∈ s, c ∈ out) := by
  intro fuel
  induction fuel with
  | zero =>
    intro s v out hrun hs hv hcl
    match s with
    | [] =>
      simp only [fill_loop, Option.some.injEq] at hrun
      subst hrun
      refine ⟨hv, ?_, fun c hc => hc, by simp⟩
      intro c hc q hq
      rcases hcl c hc q hq with h | h
      · exact h
      · cases h
    | p :: rest => simp [fill_loop] at hrun
  | succ n ih =>
    intro s v out hrun hs hv hcl
    match s with
    | [] =>
      simp only [fill_loop, Option.some.injEq] at hrun
      subst hrun
      refine ⟨hv, ?_, fun c hc => hc, by simp⟩
      intro c hc q hq
      rcases hcl c hc q hq with h | h
      · exact h
      · cases h
    | p :: rest =>
      have hrun' : fill_loop tiles n
          (((neighbors p).filter fun q =>
            decide (q ∉ insert p v ∧ (lookup tiles q).is_solid = true)).reverse ++ rest)
          (insert p v) = some out := hrun
      have hreach_p : CanReach tiles start p := hs p (by simp)
      have hpush : ∀ c ∈ ((neighbors p).filter fun q =>
          decide (q ∉ insert p v ∧ (lookup tiles q).is_solid = true)),
          FillStep tiles p c := by
        intro c hc
        have hmem := List.mem_of_mem_filter hc
        have hprop := List.of_mem_filter hc
        simp only [decide_eq_true_eq] at hprop
        exact ⟨hmem, hprop.2⟩
      obtain ⟨hsound, hclosed, hvsub, hssub⟩ := ih _ _ _ hrun'
        (by
          intro c hc
          rcases List.mem_append.mp hc with hc | hc
          · exact Relation.ReflTransGen.tail hreach_p
              (hpush c (List.mem_reverse.mp hc))
          · exact hs c (by simp [hc]))
        (by
          intro c hc
          rcases Finset.mem_insert.mp hc with rfl | hc
          · exact hreach_p
          · exact hv c hc)
        (by
          intro c hc q hq
          rcases Finset.mem_insert.mp hc with rfl | hc
          · by_cases hqv : q ∈ insert c v
            · exact Or.inl hqv
            · refine Or.inr (List.mem_append.mpr (Or.inl ?_))
              rw [List.mem_reverse]
              rw [List.mem_filter]
              exact ⟨hq.1, by simp only [decide_eq_true_eq]; exact ⟨hqv, hq.2⟩⟩
          · rcases hcl c hc q hq with h | h
            · exact Or.inl (Finset.mem_insert_of_mem h)
            · rcases List.mem_cons.mp h with rfl | h
              · exact Or.inl (Finset.mem_insert_self q v)
              · exact Or.inr (List.mem_append.mpr (Or.inr h)))
      refine ⟨hsound, hclosed, ?_, ?_⟩
      · intro c hc
        exact hvsub c (Finset.mem_insert_of_mem hc)
      · intro c hc
        rcases List.mem_cons.mp hc with rfl | hc
        · exact hvsub c (Finset.mem_insert_self c v)
        · exact hssub c (List.mem_append.mpr (Or.inr hc))

/-- A set that contains `start` and is closed under fill steps contains
everything reachable from `start`. -/
lemma canReach_mem_of_closed {tiles : Nat → Nat → Tile} {out : Finset Point}
    {start q : Point} (hstart : start ∈ out)
    (hclosed : ∀ c ∈ out, ∀ q, FillStep tiles c q → q ∈ out)
    (h : CanReach tiles start q) : q ∈ out := by
  induction h with
  | refl => exact hstart
  | tail hb st ih => exact hclosed _ ih _ st

lemma fill_loop_run (tiles : Nat → Nat → Tile) {start : Point}
    (hg : start ∈ gridPts) :
    ∃ out, fill_loop tiles fillFuel [start] ∅ = some out := by
  have hm : fillMeasure [start] ∅ < fillFuel := by
    unfold fillMeasure fillFuel
    rw [Finset.sdiff_empty, gridPts_card, topWeight_cons]
    have : start ∉ (∅ : Finset Point) := Finset.not_mem_empty start
    rw [if_neg this]
    simp only [List.length_cons, List.length_nil]
    omega
  have := fill_loop_total tiles fillFuel [start] ∅
    (by intro p hp; rcases List.mem_singleton.mp hp with rfl; exact hg) hm
  exact Option.isSome_iff_exists.mp this

/-- Characterisation of `fill`: the membership set of the produced region
is exactly the set of cells reachable from the start cell through solid
in-bounds neighbours. -/
lemma fill_members (tiles : Nat → Nat → Tile) {start : Point}
    (hg : start ∈ gridPts) :
    ∀ q, q ∈ (fill start tiles).members ↔ CanReach tiles start q := by
  obtain ⟨out, hout⟩ := fill_loop_run tiles hg
  have hmem : (fill start tiles).members = out := by
    simp [fill, hout]
  obtain ⟨hsound, hclosed, _, hssub⟩ := fill_loop_spec tiles start fillFuel [start] ∅ out hout
    (by intro c hc; rcases List.mem_singleton.mp hc with rfl; exact Relation.ReflTransGen.refl)
    (by intro c hc; cases Finset.not_mem_empty c hc)
    (by intro c hc; cases Finset.not_mem_empty c hc)
  intro q
  rw [hmem]
  constructor
  · exact hsound q
  · exact canReach_mem_of_closed (hssub start (by simp)) hclosed

lemma fill_start_mem (tiles : Nat → Nat → Tile) {start : Point}
    (hg : start ∈ gridPts) : start ∈ (fill start tiles).members :=
  (fill_members tiles hg start).mpr Relation.ReflTransGen.refl

/-! ## The scan of floodfill_all -/

/-- Strict scan order on cells. -/
def lexLT (a b : Point) : Prop := a.1 < b.1 ∨ (a.1 = b.1 ∧ a.2 < b.2)

lemma lexLE_refl (p : Point) : lexLE p p := Or.inr ⟨rfl, le_refl _⟩

lemma lexLT_of_not_lexLE {p q : Point} (h : ¬ lexLE p q) : lexLT q p := by
  unfold lexLE at h
  unfold lexLT
  omega

lemma lexLT_asymm {p q : Point} (h1 : lexLT p q) (h2 : lexLT q p) : False := by
  unfold lexLT at h1 h2
  omega

lemma mem_scanPoints {p : Point} : p ∈ scanPoints ↔ p.1 < 1000 ∧ p.2 < 1000 := by
  obtain ⟨a, b⟩ := p
  unfold scanPoints
  rw [List.mem_flatMap]
  constructor
  · rintro ⟨x, hx, hp⟩
    rw [List.mem_map] at hp
    obtain ⟨y, hy, heq⟩ := hp
    rw [List.mem_range] at hx hy
    cases heq
    exact ⟨hx, hy⟩
  · rintro ⟨ha, hb⟩
    refine ⟨a, List.mem_range.mpr ha, ?_⟩
    rw [List.mem_map]
    exact ⟨b, List.mem_range.mpr hb, rfl⟩

lemma pairwise_flatMap {α β : Type} (R : β → β → Prop) (f : α → List β)
    (l : List α)
    (hcross : List.Pairwise (fun a a' => ∀ b ∈ f a, ∀ b' ∈ f a', R b b') l)
    (hin : ∀ a ∈ l, List.Pairwise R (f a)) :
    List.Pairwise R (l.flatMap f) := by
  induction l with
  | nil => simp
  | cons a l ih =>
    rw [List.flatMap_cons, List.pairwise_append]
    rcases hcross with _ | ⟨ha, hcross'⟩
    refine ⟨hin a (by simp), ih hcross' (fun a' ha' => hin a' (by simp [ha'])), ?_⟩
    intro b hb b' hb'
    rw [List.mem_flatMap] at hb'
    obtain ⟨a', ha', hb'⟩ := hb'
    exact ha a' ha' b hb b' hb'

lemma scanPoints_sorted : List.Pairwise lexLT scanPoints := by
  unfold scanPoints
  apply pairwise_flatMap
  · have := List.pairwise_lt_range 1000
    apply List.Pairwise.imp ?_ this
    intro x x' hxx b hb b' hb'
    rw [List.mem_map] at hb hb'
    obtain ⟨y, _, rfl⟩ := hb
    obtain ⟨y', _, rfl⟩ := hb'
    exact Or.inl hxx
  · intro x _
    rw [List.pairwise_map]
    apply List.Pairwise.imp ?_ (List.pairwise_lt_range 1000)
    intro y y' hyy
    exact Or.inr ⟨rfl, hyy⟩

/-- The scan starts at cell `(0, 0)`. -/
lemma scanPoints_cons : ∃ T, scanPoints = ((0 : Nat), (0 : Nat)) :: T := by
  unfold scanPoints
  rw [List.range_succ_eq_map, List.flatMap_cons, List.map_cons]
  exact ⟨_, rfl⟩

-- Keep the elaborator from ever expanding the million-element scan list.
attribute [irreducible] scanPoints

/-- A region as produced by `fill` from a solid in-grid seed: the members
are exactly the cells reachable from the start. -/
def GoodRegion (tiles : Nat → Nat → Tile) (r : Region) : Prop :=
  r.start ∈ gridPts ∧ (lookup tiles r.start).is_solid = true ∧
  ∀ q, q ∈ r.members ↔ CanReach tiles r.start q

/-- Invariant of the `floodfill_all` scan after the cells in `done` have
been processed. -/
def ScanInv (tiles : Nat → Nat → Tile) (done : List Point) (R : List Region) :
    Prop :=
  (∀ r ∈ R, GoodRegion tiles r ∧ ∀ q ∈ r.members, lexLE r.start q) ∧
  List.Pairwise (fun r1 r2 => Disjoint r1.members r2.members) R ∧
  (∀ p ∈ done, (lookup tiles p).is_solid = true → ∃ r ∈ R, p ∈ r.members)

lemma scan_step_inv (tiles : Nat → Nat → Tile) (done L' : List Point)
    (p : Point) (R : List Region)
    (hdec : done ++ p :: L' = scanPoints) (hinv : ScanInv tiles done R) :
    ScanInv tiles (done ++ [p]) (scan_step tiles R p) := by
  obtain ⟨hgood, hdisj, hcover⟩ := hinv
  have hpscan : p ∈ scanPoints := by rw [← hdec]; simp
  have hpgrid : p ∈ gridPts := by
    rw [mem_gridPts]
    exact mem_scanPoints.mp hpscan
  have hafter : ∀ q ∈ L', lexLT p q := by
    have hsorted := scanPoints_sorted
    rw [← hdec, List.pairwise_append] at hsorted
    have := hsorted.2.1
    rcases this with _ | ⟨hhead, _⟩
    exact hhead
  have hbefore : ∀ q : Point, q ∈ gridPts → lexLT q p → q ∈ done := by
    intro q hq hlt
    have hqscan : q ∈ scanPoints := by
      rw [mem_scanPoints]
      exact mem_gridPts.mp hq
    rw [← hdec] at hqscan
    rcases List.mem_append.mp hqscan with h | h
    · exact h
    · rcases List.mem_cons.mp h with rfl | h
      · exact absurd hlt (fun hlt => lexLT_asymm hlt hlt)
      · exact absurd hlt (lexLT_asymm (hafter q h))
  unfold scan_step
  split
  case isTrue hcond =>
    obtain ⟨hsolid, hnotin⟩ := hcond
    have hfillgood : GoodRegion tiles (fill p tiles) :=
      ⟨hpgrid, hsolid, fill_members tiles hpgrid⟩
    have hmin : ∀ q ∈ (fill p tiles).members, lexLE p q := by
      intro q hq
      by_contra hle
      have hlt := lexLT_of_not_lexLE hle
      have hreach : CanReach tiles p q := (fill_members tiles hpgrid q).mp hq
      have hqgrid : q ∈ gridPts := canReach_in_grid hpgrid hreach
      have hqsolid : (lookup tiles q).is_solid = true := by
        rcases canReach_solid hreach with rfl | hs
        · exact absurd (lexLE_refl q) hle
        · exact hs
      obtain ⟨r, hr, hqr⟩ := hcover q (hbefore q hqgrid hlt) hqsolid
      have hrgood := (hgood r hr).1
      have hreach_r : CanReach tiles r.start q := (hrgood.2.2 q).mp hqr
      have : CanReach tiles r.start p :=
        canReach_trans hpgrid hsolid hreach hreach_r
      exact hnotin r hr ((hrgood.2.2 p).mpr this)
    have hnew_old_disj : ∀ r ∈ R, Disjoint r.members (fill p tiles).members := by
      intro r hr
      rw [Finset.disjoint_left]
      intro q hqr hqf
      have hrgood := (hgood r hr).1
      have h1 : CanReach tiles p q := (fill_members tiles hpgrid q).mp hqf
      have h2 : CanReach tiles r.start q := (hrgood.2.2 q).mp hqr
      have : CanReach tiles r.start p := canReach_trans hpgrid hsolid h1 h2
      exact hnotin r hr ((hrgood.2.2 p).mpr this)
    refine ⟨?_, ?_, ?_⟩
    · intro r hr
      rcases List.mem_append.mp hr with hr | hr
      · exact ⟨(hgood r hr).1, (hgood r hr).2⟩
      · rcases List.mem_singleton.mp hr with rfl
        exact ⟨hfillgood, hmin⟩
    · rw [List.pairwise_append]
      refine ⟨hdisj, List.pairwise_singleton _ _, ?_⟩
      intro r hr r' hr'
      rcases List.mem_singleton.mp hr' with rfl
      exact hnew_old_disj r hr
    · intro q hq hqsolid
      rcases List.mem_append.mp hq with hq | hq
      · obtain ⟨r, hr, hqr⟩ := hcover q hq hqsolid
        exact ⟨r, List.mem_append.mpr (Or.inl hr), hqr⟩
      · rcases List.mem_singleton.mp hq with rfl
        exact ⟨fill q tiles, List.mem_append.mpr (Or.inr (by simp)),
          fill_start_mem tiles hpgrid⟩
  case isFalse hcond =>
    refine ⟨hgood, hdisj, ?_⟩
    intro q hq hqsolid
    rcases List.mem_append.mp hq with hq | hq
    · exact hcover q hq hqsolid
    · rcases List.mem_singleton.mp hq with rfl
      rcases Decidable.not_and_iff_or_not.mp hcond with h | h
      · exact absurd hqsolid h
      · push_neg at h
        obtain ⟨r, hr, hqr⟩ := h
        exact ⟨r, hr, hqr⟩

lemma scan_fold_inv (tiles : Nat → Nat → Tile) :
    ∀ L done R, done ++ L = scanPoints → ScanInv tiles done R →
      ScanInv tiles scanPoints (L.foldl (scan_step tiles) R) := by
  intro L
  induction L with
  | nil =>
    intro done R hdec hinv
    rw [List.foldl_nil]
    rw [List.append_nil] at hdec
    rwa [← hdec]
  | cons p L' ih =>
    intro done R hdec hinv
    rw [List.foldl_cons]
    apply ih (done ++ [p])
    · rw [List.append_assoc]
      simpa using hdec
    · exact scan_step_inv tiles done L' p R hdec hinv

lemma floodfill_all_regions (tiles : Nat → Nat → Tile) :
    (floodfill_all tiles).regions = scanPoints.foldl (scan_step tiles) [] := rfl

/-- The scan invariant holds of the final result of `floodfill_all`. -/
lemma floodfill_all_inv (tiles : Nat → Nat → Tile) :
    ScanInv tiles scanPoints (floodfill_all tiles).regions := by
  rw [floodfill_all_regions]
  exact scan_fold_inv tiles scanPoints [] [] (by simp)
    ⟨by simp, List.Pairwise.nil, by simp⟩

lemma adj_of_mem_neighbors {p q : Point} (h : q ∈ neighbors p) : Adj p q := by
  rcases mem_neighbors.mp h with ⟨h, rfl⟩ | ⟨h, rfl⟩ | ⟨h, rfl⟩ | ⟨h, rfl⟩ <;>
    unfold Adj <;> dsimp only <;> omega

lemma pathWithin_of_canReach {tiles : Nat → Nat → Tile} {r : Region}
    (hgood : GoodRegion tiles r) {p : Point}
    (h : CanReach tiles r.start p) : PathWithin r.members r.start p := by
  induction h with
  | refl => exact Relation.ReflTransGen.refl
  | @tail b c hb st ih =>
    refine Relation.ReflTransGen.tail ih ⟨?_, adj_of_mem_neighbors st.1⟩
    exact (hgood.2.2 c).mpr (Relation.ReflTransGen.tail hb st)

lemma pow64_eq : (2 : Nat) ^ 64 = 18446744073709551616 := by norm_num

lemma wsub_zero : wsub 0 = USIZE_MAX := by
  unfold wsub USIZE_MAX
  rw [pow64_eq]

lemma wsub_of_pos {x : Nat} (h1 : x ≠ 0) (h2 : x ≤ 2000) : wsub x = x - 1 := by
  unfold wsub
  rw [pow64_eq]
  omega

lemma USIZE_MAX_large : 1000 < USIZE_MAX := by
  unfold USIZE_MAX
  rw [pow64_eq]
  omega

lemma members_subset_grid {tiles : Nat → Nat → Tile} {r : Region}
    (hgood : GoodRegion tiles r) {q : Point} (hq : q ∈ r.members) :
    q.1 < 1000 ∧ q.2 < 1000 := by
  have := canReach_in_grid hgood.1 ((hgood.2.2 q).mp hq)
  exact mem_gridPts.mp this

/-! ## Claim theorems about floodfill_all -/

/-- Claim C1.  The regions returned by floodfill_all partition the solid
cells of the grid: a cell belongs to some returned region exactly when it
is an in-bounds solid cell, and the membership sets of the returned
regions are pairwise disjoint, so every solid cell belongs to exactly one
region. -/
theorem floodfill_all_partitions (tiles : Nat → Nat → Tile) :
    (∀ p : Point,
      (∃ r ∈ (floodfill_all tiles).regions, p ∈ r.members) ↔
        p.1 < 1000 ∧ p.2 < 1000 ∧ (lookup tiles p).is_solid = true) ∧
    List.Pairwise (fun r1 r2 => Disjoint r1.members r2.members)
      (floodfill_all tiles).regions := by
  obtain ⟨hgood, hdisj, hcover⟩ := floodfill_all_inv tiles
  refine ⟨?_, hdisj⟩
  intro p
  constructor
  · rintro ⟨r, hr, hp⟩
    have hg := (hgood r hr).1
    have hreach : CanReach tiles r.start p := (hg.2.2 p).mp hp
    have hgrid := mem_gridPts.mp (canReach_in_grid hg.1 hreach)
    refine ⟨hgrid.1, hgrid.2, ?_⟩
    rcases canReach_solid hreach with rfl | hs
    · exact hg.2.1
    · exact hs
  · rintro ⟨h1, h2, hsolid⟩
    exact hcover p (mem_scanPoints.mpr ⟨h1, h2⟩) hsolid

/-- Claim C2.  Every cell of a region returned by floodfill_all is
reachable from the start cell of the region by a path of 4-connected
cells that all belong to the membership set. -/
theorem floodfill_all_connected (tiles : Nat → Nat → Tile) :
    ∀ r ∈ (floodfill_all tiles).regions,
      r.start ∈ r.members ∧
      ∀ p ∈ r.members, PathWithin r.members r.start p := by
  obtain ⟨hgood, _, _⟩ := floodfill_all_inv tiles
  intro r hr
  have hg := (hgood r hr).1
  refine ⟨(hg.2.2 r.start).mpr Relation.ReflTransGen.refl, ?_⟩
  intro p hp
  exact pathWithin_of_canReach hg ((hg.2.2 p).mp hp)

/-- Claim C10.  The start cell of every region produced by floodfill_all
is its first member in scan order (x ascending, then y ascending), the
two cells that the walk would test above the start corner - the cells at
the wrapped coordinates (x, y-1) and (x-1, y-1) - are never members, and
the initial East heading is valid: the cell kept to the inside of the
first edge, which is the start cell itself, is solid. -/
theorem floodfill_all_start_min (tiles : Nat → Nat → Tile) :
    ∀ r ∈ (floodfill_all tiles).regions,
      r.start ∈ r.members ∧
      (∀ q ∈ r.members, lexLE r.start q) ∧
      (r.start.1, wsub r.start.2) ∉ r.members ∧
      (wsub r.start.1, wsub r.start.2) ∉ r.members ∧
      solidAt r.members r.start (1, 0) = some true := by
  obtain ⟨hgood, _, _⟩ := floodfill_all_inv tiles
  intro r hr
  obtain ⟨hg, hmin⟩ := hgood r hr
  have hstart : r.start ∈ r.members :=
    (hg.2.2 r.start).mpr Relation.ReflTransGen.refl
  refine ⟨hstart, hmin, ?_, ?_, ?_⟩
  · intro hmem
    have hgrid := members_subset_grid hg hmem
    by_cases hy : r.start.2 = 0
    · rw [hy, wsub_zero] at hgrid
      exact absurd hgrid.2 (by have := USIZE_MAX_large; omega)
    · have hb := (members_subset_grid hg hstart).2
      rw [wsub_of_pos hy (by omega)] at hmem
      have := hmin _ hmem
      unfold lexLE at this
      dsimp only at this
      omega
  · intro hmem
    have hgrid := members_subset_grid hg hmem
    by_cases hx : r.start.1 = 0
    · rw [hx, wsub_zero] at hgrid
      exact absurd hgrid.1 (by have := USIZE_MAX_large; omega)
    · have hb := (members_subset_grid hg hstart).1
      rw [wsub_of_pos hx (by omega)] at hmem
      have := hmin _ hmem
      unfold lexLE at this
      dsimp only at this
      omega
  · unfold solidAt modify
    rw [if_pos rfl]
    show some (decide (r.start ∈ r.members)) = some true
    rw [decide_eq_true hstart]

/-! ## Claim C8: determinism and solidity-extensionality of the scan -/

lemma fill_loop_congr {tiles tiles' : Nat → Nat → Tile}
    (hsol : ∀ p ∈ gridPts, (lookup tiles p).is_solid = (lookup tiles' p).is_solid) :
    ∀ fuel s v, (∀ p ∈ s, p ∈ gridPts) →
      fill_loop tiles fuel s v = fill_loop tiles' fuel s v := by
  intro fuel
  induction fuel with
  | zero =>
    intro s v _
    match s with
    | [] => rfl
    | p :: rest => rfl
  | succ n ih =>
    intro s v hgrid
    match s with
    | [] => rfl
    | p :: rest =>
      have hfil : (neighbors p).filter
            (fun q => decide (q ∉ insert p v ∧ (lookup tiles q).is_solid = true)) =
          (neighbors p).filter
            (fun q => decide (q ∉ insert p v ∧ (lookup tiles' q).is_solid = true)) := by
        apply List.filter_congr
        intro q hq
        have hqg : q ∈ gridPts := neighbors_mem_grid (hgrid p (by simp)) hq
        rw [hsol q hqg]
      show fill_loop tiles n _ _ = fill_loop tiles' n _ _
      rw [hfil]
      apply ih
      intro q hq
      rcases List.mem_append.mp hq with hq | hq
      · exact neighbors_mem_grid (hgrid p (by simp))
          (List.mem_of_mem_filter (List.mem_reverse.mp hq))
      · exact hgrid q (by simp [hq])

lemma fill_congr {tiles tiles' : Nat → Nat → Tile}
    (hsol : ∀ p ∈ gridPts, (lookup tiles p).is_solid = (lookup tiles' p).is_solid)
    {p : Point} (hp : p ∈ gridPts) : fill p tiles = fill p tiles' := by
  unfold fill
  rw [fill_loop_congr hsol fillFuel [p] ∅
    (by intro q hq; rcases List.mem_singleton.mp hq with rfl; exact hp)]

lemma scan_fold_congr {tiles tiles' : Nat → Nat → Tile}
    (hsol : ∀ p ∈ gridPts, (lookup tiles p).is_solid = (lookup tiles' p).is_solid) :
    ∀ (L : List Point) (R : List Region), (∀ p ∈ L, p ∈ gridPts) →
      L.foldl (scan_step tiles) R = L.foldl (scan_step tiles') R := by
  intro L
  induction L with
  | nil => intro R _; rfl
  | cons p L' ih =>
    intro R hgrid
    rw [List.foldl_cons, List.foldl_cons]
    have hp : p ∈ gridPts := hgrid p (by simp)
    have hstep : scan_step tiles R p = scan_step tiles' R p := by
      unfold scan_step
      rw [if_congr (iff_of_eq (by rw [hsol p hp])) (by rw [fill_congr hsol hp]) rfl]
    rw [hstep]
    exact ih _ (fun q hq => hgrid q (by simp [hq]))

/-- Claim C8.  floodfill_all is deterministic and pure: its result is a
function of the solidity of the in-bounds cells alone, so two runs over
grids with the same solidity (in particular two runs over the same grid)
return identical region lists, with identical ordering, start cells and
membership sets. -/
theorem floodfill_all_deterministic (tiles tiles' : Nat → Nat → Tile)
    (h : ∀ x y, x < 1000 → y < 1000 →
      (tiles y x).is_solid = (tiles' y x).is_solid) :
    (floodfill_all tiles).regions = (floodfill_all tiles').regions := by
  rw [floodfill_all_regions, floodfill_all_regions]
  apply scan_fold_congr
  · intro p hp
    have := mem_gridPts.mp hp
    exact h p.1 p.2 this.1 this.2
  · intro p hp
    rw [mem_gridPts]
    exact mem_scanPoints.mp hp

/-! ## Wrapping arithmetic of the walk -/

lemma bmod_small {z : Int} (h0 : -2147483648 ≤ z) (h1 : z < 2147483648) :
    Int.bmod z (2 ^ 32) = z := by
  unfold Int.bmod
  have hm : ((2 ^ 32 : Nat) : Int) = 4294967296 := by norm_num
  rw [hm]
  simp only []
  rw [show ((4294967296 : Int) + 1) / 2 = 2147483648 by norm_num]
  split <;> omega

lemma usizeToI32_small {x : Nat} (h : x ≤ 2000) : usizeToI32 x = x := by
  unfold usizeToI32
  apply bmod_small <;> omega

lemma i32ToUsize_of_nonneg {z : Int} (h0 : 0 ≤ z)
    (h1 : z < 18446744073709551616) : i32ToUsize z = z.toNat := by
  unfold i32ToUsize
  rw [show ((2 : Int) ^ 64) = 18446744073709551616 by norm_num]
  rw [Int.emod_eq_of_lt h0 h1]

lemma add_dir_small {x y : Nat} {dx dy : Int} (hx : x ≤ 2000) (hy : y ≤ 2000)
    (hdx : -1 ≤ dx ∧ dx ≤ 1) (hdy : -1 ≤ dy ∧ dy ≤ 1)
    (hresx : 0 ≤ (x : Int) + dx) (hresy : 0 ≤ (y : Int) + dy) :
    add_dir (x, y) (dx, dy) = (((x : Int) + dx).toNat, ((y : Int) + dy).toNat) := by
  unfold add_dir
  dsimp only
  rw [usizeToI32_small hx, usizeToI32_small hy]
  rw [bmod_small (by omega) (by omega), bmod_small (by omega) (by omega)]
  rw [i32ToUsize_of_nonneg hresx (by omega), i32ToUsize_of_nonneg hresy (by omega)]

lemma add_dir_E {x y : Nat} (hx : x ≤ 2000) (hy : y ≤ 2000) :
    add_dir (x, y) (1, 0) = (x + 1, y) := by
  rw [add_dir_small hx hy (by omega) (by omega) (by omega) (by omega)]
  simp only [Prod.mk.injEq]
  constructor <;> omega

lemma add_dir_S {x y : Nat} (hx : x ≤ 2000) (hy : y ≤ 2000) :
    add_dir (x, y) (0, 1) = (x, y + 1) := by
  rw [add_dir_small hx hy (by omega) (by omega) (by omega) (by omega)]
  simp only [Prod.mk.injEq]
  constructor <;> omega

lemma add_dir_W {x y : Nat} (hx : x ≤ 2000) (hy : y ≤ 2000) (h0 : x ≠ 0) :
    add_dir (x, y) (-1, 0) = (x - 1, y) := by
  rw [add_dir_small hx hy (by omega) (by omega) (by omega) (by omega)]
  simp only [Prod.mk.injEq]
  constructor <;> omega

lemma add_dir_N {x y : Nat} (hx : x ≤ 2000) (hy : y ≤ 2000) (h0 : y ≠ 0) :
    add_dir (x, y) (0, -1) = (x, y - 1) := by
  rw [add_dir_small hx hy (by omega) (by omega) (by omega) (by omega)]
  simp only [Prod.mk.injEq]
  constructor <;> omega

/-! ## The four unit directions -/

lemma leftTurn_E : leftTurn (1, 0) = some (0, -1) := by decide
lemma leftTurn_S : leftTurn (0, 1) = some (1, 0) := by decide
lemma leftTurn_W : leftTurn (-1, 0) = some (0, 1) := by decide
lemma leftTurn_N : leftTurn (0, -1) = some (-1, 0) := by decide

lemma rightTurn_E : rightTurn (1, 0) = some (0, 1) := by decide
lemma rightTurn_S : rightTurn (0, 1) = some (-1, 0) := by decide
lemma rightTurn_W : rightTurn (-1, 0) = some (0, -1) := by decide
lemma rightTurn_N : rightTurn (0, -1) = some (1, 0) := by decide

lemma modify_E (p : Point) : modify p (1, 0) = some p := by
  unfold modify
  rw [if_pos rfl]

lemma modify_S (p : Point) : modify p (0, 1) = some (wsub p.1, p.2) := by
  unfold modify
  rw [if_neg (by decide), if_pos rfl]

lemma modify_W (p : Point) : modify p (-1, 0) = some (wsub p.1, wsub p.2) := by
  unfold modify
  rw [if_neg (by decide), if_neg (by decide), if_pos rfl]

lemma modify_N (p : Point) : modify p (0, -1) = some (p.1, wsub p.2) := by
  unfold modify
  rw [if_neg (by decide), if_neg (by decide), if_neg (by decide), if_pos rfl]

/-- The three-way decision, fully evaluated given the turn table entries
and the two tested cells. -/
lemma walk_decide_cases (members : Finset Point) (c : Point) {d ld rd : Dir}
    {lcell acell : Point}
    (hl : leftTurn d = some ld) (hr : rightTurn d = some rd)
    (hlc : modify c ld = some lcell) (hac : modify c d = some acell) :
    walk_decide members c d =
      if lcell ∈ members then some (ld, true)
      else if acell ∈ members then some (d, false)
      else some (rd, true) := by
  by_cases h1 : lcell ∈ members
  · have e1 : solidAt members c ld = some true := by
      unfold solidAt
      rw [hlc, Option.map_some', decide_eq_true h1]
    rw [if_pos h1]
    simp only [walk_decide, hl, e1]
  · have e1 : solidAt members c ld = some false := by
      unfold solidAt
      rw [hlc, Option.map_some', decide_eq_false h1]
    rw [if_neg h1]
    by_cases h2 : acell ∈ members
    · have e2 : solidAt members c d = some true := by
        unfold solidAt
        rw [hac, Option.map_some', decide_eq_true h2]
      rw [if_pos h2]
      simp only [walk_decide, hl, e1, e2]
    · have e2 : solidAt members c d = some false := by
        unfold solidAt
        rw [hac, Option.map_some', decide_eq_false h2]
      rw [if_neg h2]
      simp only [walk_decide, hl, e1, e2, hr, Option.map_some']

/-- Claim C4.  At every step of the walk, after advancing one lattice unit
along the current direction, exactly one of three cases applies: if the
cell to the left of the direction of travel at the new corner is solid,
the walk turns left (counter-clockwise) and records the new corner as a
vertex; otherwise, if the cell ahead (to the right of the continuing
edge) is solid, the walk keeps its direction and emits no vertex;
otherwise it turns right (clockwise) and records the new corner.  A
vertex is emitted exactly when the direction changes. -/
theorem walk_turning_rule (members : Finset Point) (s : WalkState)
    (h : UnitDir s.dir) :
    ∃ ld rd lcell acell,
      leftTurn s.dir = some ld ∧ rightTurn s.dir = some rd ∧
      ld ≠ s.dir ∧ rd ≠ s.dir ∧ ld ≠ rd ∧
      modify (add_dir s.cur s.dir) ld = some lcell ∧
      modify (add_dir s.cur s.dir) s.dir = some acell ∧
      ∃ s', walkStep members s = some s' ∧ s'.cur = add_dir s.cur s.dir ∧
        (lcell ∈ members → s'.dir = ld ∧ s'.verts = s.verts ++ [s'.cur]) ∧
        (lcell ∉ members → acell ∈ members →
          s'.dir = s.dir ∧ s'.verts = s.verts) ∧
        (lcell ∉ members → acell ∉ members →
          s'.dir = rd ∧ s'.verts = s.verts ++ [s'.cur]) ∧
        (s'.verts ≠ s.verts ↔ s'.dir ≠ s.dir) := by
  obtain ⟨cur, dir, verts⟩ := s
  have hstep : ∀ ld rd : Dir, ∀ lcell acell : Point,
      leftTurn dir = some ld → rightTurn dir = some rd →
      modify (add_dir cur dir) ld = some lcell →
      modify (add_dir cur dir) dir = some acell →
      ld ≠ dir → rd ≠ dir → ld ≠ rd →
      ∃ s', walkStep members ⟨cur, dir, verts⟩ = some s' ∧
        s'.cur = add_dir cur dir ∧
        (lcell ∈ members → s'.dir = ld ∧ s'.verts = verts ++ [s'.cur]) ∧
        (lcell ∉ members → acell ∈ members → s'.dir = dir ∧ s'.verts = verts) ∧
        (lcell ∉ members → acell ∉ members →
          s'.dir = rd ∧ s'.verts = verts ++ [s'.cur]) ∧
        (s'.verts ≠ verts ↔ s'.dir ≠ dir) := by
    intro ld rd lcell acell hl hr hlc hac hld hrd hlr
    simp only [walkStep]
    rw [walk_decide_cases members _ hl hr hlc hac]
    by_cases h1 : lcell ∈ members
    · rw [if_pos h1]
      refine ⟨_, rfl, rfl, fun _ => ⟨rfl, rfl⟩, fun hc => absurd h1 hc,
        fun hc _ => absurd h1 hc, ?_⟩
      simp only [if_pos]
      constructor
      · intro _; exact hld
      · intro _; simp
    · rw [if_neg h1]
      by_cases h2 : acell ∈ members
      · rw [if_pos h2]
        refine ⟨_, rfl, rfl, fun hc => absurd hc h1,
          fun _ _ => ⟨rfl, rfl⟩, fun _ hc => absurd h2 hc, ?_⟩
        simp
      · rw [if_neg h2]
        refine ⟨_, rfl, rfl, fun hc => absurd hc h1,
          fun _ hc => absurd hc h2, fun _ _ => ⟨rfl, rfl⟩, ?_⟩
        constructor
        · intro _; exact hrd
        · intro _; simp
  dsimp only at h ⊢
  rcases h with rfl | rfl | rfl | rfl
  · exact ⟨_, _, _, _, leftTurn_E, rightTurn_E, by decide, by decide, by decide,
      modify_N _, modify_E _,
      hstep _ _ _ _ leftTurn_E rightTurn_E (modify_N _) (modify_E _)
        (by decide) (by decide) (by decide)⟩
  · exact ⟨_, _, _, _, leftTurn_S, rightTurn_S, by decide, by decide, by decide,
      modify_E _, modify_S _,
      hstep _ _ _ _ leftTurn_S rightTurn_S (modify_E _) (modify_S _)
        (by decide) (by decide) (by decide)⟩
  · exact ⟨_, _, _, _, leftTurn_W, rightTurn_W, by decide, by decide, by decide,
      modify_S _, modify_W _,
      hstep _ _ _ _ leftTurn_W rightTurn_W (modify_S _) (modify_W _)
        (by decide) (by decide) (by decide)⟩
  · exact ⟨_, _, _, _, leftTurn_N, rightTurn_N, by decide, by decide, by decide,
      modify_W _, modify_N _,
      hstep _ _ _ _ leftTurn_N rightTurn_N (modify_W _) (modify_N _)
        (by decide) (by decide) (by decide)⟩

/-- Witness for C4 at a concrete state: the single-cell region around the
origin, standing at its top-left corner heading East. -/
theorem walk_turning_rule_witness :
    UnitDir ((1 : Int), (0 : Int)) ∧
    ∃ ld rd lcell acell,
      leftTurn ((1 : Int), (0 : Int)) = some ld ∧
      rightTurn ((1 : Int), (0 : Int)) = some rd ∧
      ld ≠ ((1 : Int), (0 : Int)) ∧ rd ≠ ((1 : Int), (0 : Int)) ∧ ld ≠ rd ∧
      modify (add_dir ((0 : Nat), (0 : Nat)) ((1 : Int), (0 : Int))) ld = some lcell ∧
      modify (add_dir ((0 : Nat), (0 : Nat)) ((1 : Int), (0 : Int)))
        ((1 : Int), (0 : Int)) = some acell ∧
      ∃ s', walkStep {((0 : Nat), (0 : Nat))}
          ⟨((0 : Nat), (0 : Nat)), ((1 : Int), (0 : Int)),
            [((0 : Nat), (0 : Nat))]⟩ = some s' ∧
        s'.cur = add_dir ((0 : Nat), (0 : Nat)) ((1 : Int), (0 : Int)) ∧
        (lcell ∈ ({((0 : Nat), (0 : Nat))} : Finset Point) →
          s'.dir = ld ∧ s'.verts = [((0 : Nat), (0 : Nat))] ++ [s'.cur]) ∧
        (lcell ∉ ({((0 : Nat), (0 : Nat))} : Finset Point) →
          acell ∈ ({((0 : Nat), (0 : Nat))} : Finset Point) →
          s'.dir = ((1 : Int), (0 : Int)) ∧ s'.verts = [((0 : Nat), (0 : Nat))]) ∧
        (lcell ∉ ({((0 : Nat), (0 : Nat))} : Finset Point) →
          acell ∉ ({((0 : Nat), (0 : Nat))} : Finset Point) →
          s'.dir = rd ∧ s'.verts = [((0 : Nat), (0 : Nat))] ++ [s'.cur]) ∧
        (s'.verts ≠ [((0 : Nat), (0 : Nat))] ↔ s'.dir ≠ ((1 : Int), (0 : Int))) :=
  ⟨by decide,
    walk_turning_rule {((0 : Nat), (0 : Nat))}
      ⟨((0 : Nat), (0 : Nat)), ((1 : Int), (0 : Int)), [((0 : Nat), (0 : Nat))]⟩
      (by decide)⟩

/-! ## Claim C9: absence of panics -/

lemma unit_of_leftTurn {d ld : Dir} (h : UnitDir d)
    (he : leftTurn d = some ld) : UnitDir ld := by
  rcases h with rfl | rfl | rfl | rfl
  · rw [leftTurn_E] at he
    injection he with h2
    rw [← h2]
    decide
  · rw [leftTurn_S] at he
    injection he with h2
    rw [← h2]
    decide
  · rw [leftTurn_W] at he
    injection he with h2
    rw [← h2]
    decide
  · rw [leftTurn_N] at he
    injection he with h2
    rw [← h2]
    decide

lemma unit_of_rightTurn {d rd : Dir} (h : UnitDir d)
    (he : rightTurn d = some rd) : UnitDir rd := by
  rcases h with rfl | rfl | rfl | rfl
  · rw [rightTurn_E] at he
    injection he with h2
    rw [← h2]
    decide
  · rw [rightTurn_S] at he
    injection he with h2
    rw [← h2]
    decide
  · rw [rightTurn_W] at he
    injection he with h2
    rw [← h2]
    decide
  · rw [rightTurn_N] at he
    injection he with h2
    rw [← h2]
    decide

/-- With a unit direction the step never panics, the direction stays a
unit vector, and the vertex list only ever grows at its end. -/
lemma walkStep_some_of_unit {members : Finset Point} {s : WalkState}
    (h : UnitDir s.dir) :
    ∃ s', walkStep members s = some s' ∧ UnitDir s'.dir ∧
      (s'.verts = s.verts ∨ s'.verts = s.verts ++ [s'.cur]) := by
  obtain ⟨ld, rd, lcell, acell, hl, hr, _, _, _, hlc, hac, s', hstep, hcur,
    hL, hA, hR, hiff⟩ := walk_turning_rule members s h
  refine ⟨s', hstep, ?_, ?_⟩
  · by_cases h1 : lcell ∈ members
    · rw [(hL h1).1]
      exact unit_of_leftTurn h hl
    · by_cases h2 : acell ∈ members
      · rw [(hA h1 h2).1]
        exact h
      · rw [(hR h1 h2).1]
        exact unit_of_rightTurn h hr
  · by_cases h1 : lcell ∈ members
    · exact Or.inr (hL h1).2
    · by_cases h2 : acell ∈ members
      · exact Or.inl (hA h1 h2).2
      · exact Or.inr (hR h1 h2).2

lemma get_verts_loop_succ (members : Finset Point) (fuel : Nat) (cur : Point)
    (dir : Dir) (v0 : Point) (vt : List Point) :
    get_verts_loop members (fuel + 1) ⟨cur, dir, v0 :: vt⟩ =
      if cur = v0 ∧ 1 < (v0 :: vt).length then .done (v0 :: vt)
      else
        match walkStep members ⟨cur, dir, v0 :: vt⟩ with
        | none => .panicked
        | some s' => get_verts_loop members fuel s' := rfl

lemma get_verts_loop_ne_panicked (members : Finset Point) :
    ∀ fuel (s : WalkState), UnitDir s.dir → s.verts ≠ [] →
      get_verts_loop members fuel s ≠ TraceResult.panicked := by
  intro fuel
  induction fuel with
  | zero =>
    intro s _ _ h
    cases h
  | succ n ih =>
    intro s hu hne
    obtain ⟨cur, dir, verts⟩ := s
    dsimp only at hu hne
    rcases verts with _ | ⟨v0, vt⟩
    · exact absurd rfl hne
    rw [get_verts_loop_succ]
    by_cases hbr : cur = v0 ∧ 1 < (v0 :: vt).length
    · rw [if_pos hbr]
      intro h
      cases h
    · rw [if_neg hbr]
      obtain ⟨s', hstep, hu', hverts⟩ :=
        @walkStep_some_of_unit members ⟨cur, dir, v0 :: vt⟩ hu
      rw [hstep]
      apply ih s' hu'
      rcases hverts with hv | hv <;> rw [hv] <;> simp

/-- Claim C9.  For any region whose members are grid cells, get_verts
never panics: the direction value always stays one of the four unit
vectors, so the panic and unreachable arms of the left, right and
corner-to-cell offset closures can never run; and any corner-to-cell
offset that wraps around (a coordinate equal to the largest usize) can
never be a member, so out-of-grid cells are uniformly treated as
non-solid. -/
theorem get_verts_never_panics (r : Region)
    (hmem : ∀ p ∈ r.members, p.1 < 1000 ∧ p.2 < 1000) :
    (∀ fuel, get_verts fuel r ≠ TraceResult.panicked) ∧
    (∀ (p : Point) (d : Dir) (q : Point), modify p d = some q →
      q.1 = USIZE_MAX ∨ q.2 = USIZE_MAX → q ∉ r.members) := by
  constructor
  · intro fuel
    unfold get_verts
    apply get_verts_loop_ne_panicked
    · show UnitDir (1, 0)
      decide
    · show [r.start] ≠ []
      simp
  · intro p d q _ hbig hqm
    have h1 := hmem q hqm
    have h2 := USIZE_MAX_large
    rcases hbig with hb | hb <;> omega

/-- Witness for C9: the single-cell region at the origin. -/
theorem get_verts_never_panics_witness :
    (∀ p ∈ (⟨((0 : Nat), (0 : Nat)), {((0 : Nat), (0 : Nat))}⟩ : Region).members,
      p.1 < 1000 ∧ p.2 < 1000) ∧
    (∀ fuel, get_verts fuel ⟨((0 : Nat), (0 : Nat)), {((0 : Nat), (0 : Nat))}⟩ ≠
      TraceResult.panicked) ∧
    (∀ (p : Point) (d : Dir) (q : Point), modify p d = some q →
      q.1 = USIZE_MAX ∨ q.2 = USIZE_MAX →
      q ∉ (⟨((0 : Nat), (0 : Nat)), {((0 : Nat), (0 : Nat))}⟩ : Region).members) :=
  ⟨by decide,
    get_verts_never_panics ⟨((0 : Nat), (0 : Nat)), {((0 : Nat), (0 : Nat))}⟩
      (by decide)⟩

/-! ## The walk invariant: solid on the right of every traversed edge -/

/-- Invariant of the `get_verts` loop head, for a region whose members
are grid cells: the direction is a unit vector, the corner stays on the
closed 1001 by 1001 corner lattice, and the cell to the right of the edge
about to be traversed is solid. -/
def WalkInv (members : Finset Point) (s : WalkState) : Prop :=
  UnitDir s.dir ∧ s.cur.1 ≤ 1000 ∧ s.cur.2 ≤ 1000 ∧
  ∃ rc, modify s.cur s.dir = some rc ∧ rc ∈ members

/-- Generic three-branch analysis of one walk step, given the turn-table
entries, the three tested cells at the new corner, and solidity of the
cell right of the right-turn edge (which equals the cell right of the
edge just traversed). -/
lemma walkStep_inv_core {members : Finset Point} {x y : Nat} {dir ld rd : Dir}
    {lcell acell rdcell cur' : Point} (verts : List Point)
    (hl : leftTurn dir = some ld) (hr : rightTurn dir = some rd)
    (hldu : UnitDir ld) (hrdu : UnitDir rd) (hdiru : UnitDir dir)
    (hldne : ld ≠ dir) (hrdne : rd ≠ dir)
    (hadd : add_dir (x, y) dir = cur')
    (hlc : modify cur' ld = some lcell) (hac : modify cur' dir = some acell)
    (hrc : modify cur' rd = some rdcell) (hrdm : rdcell ∈ members)
    (hbx : cur'.1 ≤ 1000) (hby : cur'.2 ≤ 1000) :
    ∃ s', walkStep members ⟨(x, y), dir, verts⟩ = some s' ∧
      WalkInv members s' ∧ s'.cur = cur' ∧
      ((s'.dir = dir ∧ s'.verts = verts) ∨
       (s'.dir ≠ dir ∧ s'.verts = verts ++ [cur'])) := by
  simp only [walkStep]
  rw [hadd, walk_decide_cases members _ hl hr hlc hac]
  by_cases h1 : lcell ∈ members
  · rw [if_pos h1]
    refine ⟨⟨cur', ld, verts ++ [cur']⟩, by simp, ?_, rfl, Or.inr ⟨hldne, rfl⟩⟩
    exact ⟨hldu, hbx, hby, lcell, hlc, h1⟩
  · rw [if_neg h1]
    by_cases h2 : acell ∈ members
    · rw [if_pos h2]
      refine ⟨⟨cur', dir, verts⟩, by simp, ?_, rfl, Or.inl ⟨rfl, rfl⟩⟩
      exact ⟨hdiru, hbx, hby, acell, hac, h2⟩
    · rw [if_neg h2]
      refine ⟨⟨cur', rd, verts ++ [cur']⟩, by simp, ?_, rfl, Or.inr ⟨hrdne, rfl⟩⟩
      exact ⟨hrdu, hbx, hby, rdcell, hrc, hrdm⟩

/-- One step from a state satisfying the walk invariant: the step
succeeds, the invariant is preserved, a vertex is recorded exactly when
the direction turns, and the corner moves one lattice unit along the old
direction (never wrapping around). -/
lemma walkStep_inv {members : Finset Point} {s : WalkState}
    (hmem : ∀ p ∈ members, p.1 < 1000 ∧ p.2 < 1000)
    (hinv : WalkInv members s) :
    ∃ s', walkStep members s = some s' ∧ WalkInv members s' ∧
      ((s'.dir = s.dir ∧ s'.verts = s.verts) ∨
       (s'.dir ≠ s.dir ∧ s'.verts = s.verts ++ [s'.cur])) ∧
      (s.dir = (1, 0) → s'.cur = (s.cur.1 + 1, s.cur.2)) ∧
      (s.dir = (0, 1) → s'.cur = (s.cur.1, s.cur.2 + 1)) ∧
      (s.dir = (-1, 0) → s.cur.1 ≠ 0 ∧ s'.cur = (s.cur.1 - 1, s.cur.2)) ∧
      (s.dir = (0, -1) → s.cur.2 ≠ 0 ∧ s'.cur = (s.cur.1, s.cur.2 - 1)) := by
  obtain ⟨⟨x, y⟩, dir, verts⟩ := s
  obtain ⟨hu, hx, hy, rc, hrc, hrcm⟩ := hinv
  dsimp only at hu hx hy hrc ⊢
  rcases hu with rfl | rfl | rfl | rfl
  · -- East
    rw [modify_E] at hrc
    injection hrc with h
    subst h
    obtain ⟨hx9, hy9⟩ := hmem _ hrcm
    dsimp only at hx9 hy9
    have hadd : add_dir (x, y) (1, 0) = (x + 1, y) := add_dir_E (by omega) (by omega)
    have hrdc : modify (x + 1, y) (0, 1) = some (x, y) := by
      rw [modify_S]
      dsimp only
      rw [wsub_of_pos (by omega) (by omega)]
      simp
    obtain ⟨s', hstep, hinv', hcur, hpush⟩ :=
      walkStep_inv_core verts leftTurn_E rightTurn_E (by decide) (by decide)
        (by decide) (by decide) (by decide) hadd (modify_N _) (modify_E _)
        hrdc hrcm (by dsimp only; omega) (by dsimp only; omega)
    rw [← hcur] at hpush
    refine ⟨s', hstep, hinv', hpush, fun _ => by rw [hcur], ?_, ?_, ?_⟩ <;>
      intro hd <;> exact absurd hd (by decide)
  · -- South
    rw [modify_S] at hrc
    injection hrc with h
    subst h
    obtain ⟨hx9, hy9⟩ := hmem _ hrcm
    dsimp only at hx9 hy9
    have hx0 : x ≠ 0 := by
      intro h0
      rw [h0, wsub_zero] at hx9
      have := USIZE_MAX_large
      omega
    rw [wsub_of_pos hx0 (by omega)] at hrcm hx9
    have hadd : add_dir (x, y) (0, 1) = (x, y + 1) := add_dir_S (by omega) (by omega)
    have hrdc : modify (x, y + 1) (-1, 0) = some (x - 1, y) := by
      rw [modify_W]
      dsimp only
      rw [wsub_of_pos hx0 (by omega), wsub_of_pos (by omega) (by omega)]
      simp
    obtain ⟨s', hstep, hinv', hcur, hpush⟩ :=
      walkStep_inv_core verts leftTurn_S rightTurn_S (by decide) (by decide)
        (by decide) (by decide) (by decide) hadd (modify_E _) (modify_S _)
        hrdc hrcm (by dsimp only; omega) (by dsimp only; omega)
    rw [← hcur] at hpush
    refine ⟨s', hstep, hinv', hpush, ?_, fun _ => by rw [hcur], ?_, ?_⟩ <;>
      intro hd <;> exact absurd hd (by decide)
  · -- West
    rw [modify_W] at hrc
    injection hrc with h
    subst h
    obtain ⟨hx9, hy9⟩ := hmem _ hrcm
    dsimp only at hx9 hy9
    have hx0 : x ≠ 0 := by
      intro h0
      rw [h0, wsub_zero] at hx9
      have := USIZE_MAX_large
      omega
    have hy0 : y ≠ 0 := by
      intro h0
      rw [h0, wsub_zero] at hy9
      have := USIZE_MAX_large
      omega
    rw [wsub_of_pos hx0 (by omega)] at hrcm hx9
    rw [wsub_of_pos hy0 (by omega)] at hrcm hy9
    have hadd : add_dir (x, y) (-1, 0) = (x - 1, y) :=
      add_dir_W (by omega) (by omega) hx0
    have hrdc : modify (x - 1, y) (0, -1) = some (x - 1, y - 1) := by
      rw [modify_N]
      dsimp only
      rw [wsub_of_pos hy0 (by omega)]
    obtain ⟨s', hstep, hinv', hcur, hpush⟩ :=
      walkStep_inv_core verts leftTurn_W rightTurn_W (by decide) (by decide)
        (by decide) (by decide) (by decide) hadd (modify_S _) (modify_W _)
        hrdc hrcm (by dsimp only; omega) (by dsimp only; omega)
    rw [← hcur] at hpush
    refine ⟨s', hstep, hinv', hpush, ?_, ?_, fun _ => ⟨hx0, by rw [hcur]⟩, ?_⟩ <;>
      intro hd <;> exact absurd hd (by decide)
  · -- North
    rw [modify_N] at hrc
    injection hrc with h
    subst h
    obtain ⟨hx9, hy9⟩ := hmem _ hrcm
    dsimp only at hx9 hy9
    have hy0 : y ≠ 0 := by
      intro h0
      rw [h0, wsub_zero] at hy9
      have := USIZE_MAX_large
      omega
    rw [wsub_of_pos hy0 (by omega)] at hrcm hy9
    have hadd : add_dir (x, y) (0, -1) = (x, y - 1) :=
      add_dir_N (by omega) (by omega) hy0
    have hrdc : modify (x, y - 1) (1, 0) = some (x, y - 1) := modify_E _
    obtain ⟨s', hstep, hinv', hcur, hpush⟩ :=
      walkStep_inv_core verts leftTurn_N rightTurn_N (by decide) (by decide)
        (by decide) (by decide) (by decide) hadd (modify_W _) (modify_N _)
        hrdc hrcm (by dsimp only; omega) (by dsimp only; omega)
    rw [← hcur] at hpush
    refine ⟨s', hstep, hinv', hpush, ?_, ?_, ?_, fun _ => ⟨hy0, by rw [hcur]⟩⟩ <;>
      intro hd <;> exact absurd hd (by decide)

/-- When the start cell is the scan-order minimum of the membership set,
the walk can only re-enter the start corner heading North, and then it
always turns right and records the corner as a vertex. -/
lemma walkStep_arrival {members : Finset Point} {start : Point} {s s' : WalkState}
    (hmem : ∀ p ∈ members, p.1 < 1000 ∧ p.2 < 1000)
    (hstart : start ∈ members) (hmin : ∀ q ∈ members, lexLE start q)
    (hinv : WalkInv members s)
    (hstep : walkStep members s = some s') (harr : s'.cur = start) :
    s.dir = (0, -1) ∧ s'.dir = (1, 0) ∧ s'.verts = s.verts ++ [start] := by
  obtain ⟨s'', hstep2, hinv2, hpush2, hE, hS, hW, hN⟩ := walkStep_inv hmem hinv
  rw [hstep] at hstep2
  injection hstep2 with h2
  subst h2
  obtain ⟨hu, hx, hy, rc, hrc, hrcm⟩ := hinv
  obtain ⟨hsx, hsy⟩ := hmem _ hstart
  rcases hu with hd | hd | hd | hd
  · -- East arrival is impossible: the edge cell is lexicographically
    -- before the start cell
    exfalso
    have hmove := hE hd
    rw [hd, modify_E] at hrc
    injection hrc with h
    subst h
    have heq : ((s.cur.1 + 1, s.cur.2) : Point) = start := by rw [← hmove, harr]
    have h1 : start.1 = s.cur.1 + 1 := by rw [← heq]
    have h2 : start.2 = s.cur.2 := by rw [← heq]
    have hlex := hmin _ hrcm
    rcases hlex with h | ⟨h, h'⟩ <;> omega
  · -- South arrival is impossible
    exfalso
    have hmove := hS hd
    rw [hd, modify_S] at hrc
    injection hrc with h
    subst h
    have heq : ((s.cur.1, s.cur.2 + 1) : Point) = start := by rw [← hmove, harr]
    have h1 : start.1 = s.cur.1 := by rw [← heq]
    have h2 : start.2 = s.cur.2 + 1 := by rw [← heq]
    obtain ⟨hb1, hb2⟩ := hmem _ hrcm
    dsimp only at hb1 hb2
    have hx0 : s.cur.1 ≠ 0 := by
      intro h0
      rw [h0, wsub_zero] at hb1
      have := USIZE_MAX_large
      omega
    rw [wsub_of_pos hx0 (by omega)] at hrcm
    have hlex := hmin _ hrcm
    rcases hlex with h | ⟨h, h'⟩
    · dsimp only at h
      omega
    · dsimp only at h h'
      omega
  · -- West arrival is impossible
    exfalso
    obtain ⟨hx0, hmove⟩ := hW hd
    rw [hd, modify_W] at hrc
    injection hrc with h
    subst h
    have heq : ((s.cur.1 - 1, s.cur.2) : Point) = start := by rw [← hmove, harr]
    have h1 : start.1 = s.cur.1 - 1 := by rw [← heq]
    have h2 : start.2 = s.cur.2 := by rw [← heq]
    obtain ⟨hb1, hb2⟩ := hmem _ hrcm
    dsimp only at hb1 hb2
    have hy0 : s.cur.2 ≠ 0 := by
      intro h0
      rw [h0, wsub_zero] at hb2
      have := USIZE_MAX_large
      omega
    rw [wsub_of_pos hx0 (by omega), wsub_of_pos hy0 (by omega)] at hrcm
    have hlex := hmin _ hrcm
    rcases hlex with h | ⟨h, h'⟩
    · dsimp only at h
      omega
    · dsimp only at h h'
      omega
  · -- North arrival: both tested cells are excluded by scan-minimality,
    -- so the walk turns right to East and pushes the corner
    refine ⟨hd, ?_⟩
    obtain ⟨ld, rd, lcell, acell, hl, hr, _, _, _, hlc, hac, s''', hstep3,
      hcur3, hL, hA, hR, _⟩ :=
      walk_turning_rule members s (Or.inr (Or.inr (Or.inr hd)))
    rw [hstep] at hstep3
    injection hstep3 with h3
    subst h3
    have haddeq : add_dir s.cur s.dir = start := by rw [← hcur3, harr]
    rw [haddeq] at hlc hac
    rw [hd, leftTurn_N] at hl
    injection hl with hl
    subst hl
    rw [hd, rightTurn_N] at hr
    injection hr with hr
    subst hr
    rw [modify_W] at hlc
    injection hlc with hlc
    subst hlc
    rw [hd, modify_N] at hac
    injection hac with hac
    subst hac
    have hlnot : ((wsub start.1, wsub start.2) : Point) ∉ members := by
      intro hmm2
      obtain ⟨hb1, hb2⟩ := hmem _ hmm2
      dsimp only at hb1 hb2
      by_cases hs1 : start.1 = 0
      · rw [hs1, wsub_zero] at hb1
        have := USIZE_MAX_large
        omega
      by_cases hs2 : start.2 = 0
      · rw [hs2, wsub_zero] at hb2
        have := USIZE_MAX_large
        omega
      rw [wsub_of_pos hs1 (by omega), wsub_of_pos hs2 (by omega)] at hmm2
      have hlex := hmin _ hmm2
      rcases hlex with h | ⟨h, h'⟩
      · dsimp only at h
        omega
      · dsimp only at h h'
        omega
    have hanot : ((start.1, wsub start.2) : Point) ∉ members := by
      intro hmm2
      obtain ⟨hb1, hb2⟩ := hmem _ hmm2
      dsimp only at hb1 hb2
      by_cases hs2 : start.2 = 0
      · rw [hs2, wsub_zero] at hb2
        have := USIZE_MAX_large
        omega
      rw [wsub_of_pos hs2 (by omega)] at hmm2
      have hlex := hmin _ hmm2
      rcases hlex with h | ⟨h, h'⟩
      · dsimp only at h
        omega
      · dsimp only at h h'
        omega
    obtain ⟨hdir', hverts'⟩ := hR hlnot hanot
    exact ⟨hdir', by rw [hverts', harr]⟩

/-! ## Counting the directions used by the walk -/

/-- Indicator of the East direction. -/
def dirE (d : Dir) : Nat := if d = (1, 0) then 1 else 0

/-- Indicator of the West direction. -/
def dirW (d : Dir) : Nat := if d = (-1, 0) then 1 else 0

/-- Indicator of the North direction. -/
def dirN (d : Dir) : Nat := if d = (0, -1) then 1 else 0

/-- Indicator of the South direction. -/
def dirS (d : Dir) : Nat := if d = (0, 1) then 1 else 0

/-- Number of distinct directions among the moves counted by the four
counters together with the pending direction `d`. -/
def usedBound (nE nW nN nS : Nat) (d : Dir) : Nat :=
  min (nE + dirE d) 1 + min (nW + dirW d) 1 +
  min (nN + dirN d) 1 + min (nS + dirS d) 1

/-- Stepping once in direction `d` and then turning to `d'` adds at most
one newly used direction. -/
lemma usedBound_step (nE nW nN nS : Nat) {d d' : Dir}
    (hd : UnitDir d) (hd' : UnitDir d') :
    usedBound (nE + dirE d) (nW + dirW d) (nN + dirN d) (nS + dirS d) d' ≤
      usedBound nE nW nN nS d + (if d' = d then 0 else 1) := by
  rcases hd with rfl | rfl | rfl | rfl <;> rcases hd' with rfl | rfl | rfl | rfl <;>
    simp [usedBound, dirE, dirW, dirN, dirS] <;> omega

/-- Loop invariant for the closure and length claims of the boundary
walk: the walk invariant holds, the first recorded vertex is the start
corner, and there are ghost counters for the moves so far that balance
the displacement, bound the number of used directions by the vertex
count, and record that any return to the start corner has just pushed
it. -/
def C3Inv (members : Finset Point) (start : Point) (s : WalkState) : Prop :=
  WalkInv members s ∧ s.verts.head? = some start ∧
  ∃ nE nW nN nS : Nat,
    s.cur.1 + nW = start.1 + nE ∧
    s.cur.2 + nN = start.2 + nS ∧
    usedBound nE nW nN nS s.dir ≤ s.verts.length ∧
    (nE = 0 → nW = 0 ∧ nN = 0 ∧ nS = 0 ∧ s.cur = start ∧ s.dir = (1, 0) ∧
      s.verts = [start]) ∧
    (s.cur = start → 1 < s.verts.length →
      s.verts.getLast? = some start ∧ 1 ≤ nN ∧
      usedBound nE nW nN nS s.dir + 1 ≤ s.verts.length)

/-- Evaluation of the four direction indicators at the four unit
directions. -/
lemma dirE_E : dirE (1, 0) = 1 := by decide
lemma dirE_S : dirE (0, 1) = 0 := by decide
lemma dirE_W : dirE (-1, 0) = 0 := by decide
lemma dirE_N : dirE (0, -1) = 0 := by decide
lemma dirW_E : dirW (1, 0) = 0 := by decide
lemma dirW_S : dirW (0, 1) = 0 := by decide
lemma dirW_W : dirW (-1, 0) = 1 := by decide
lemma dirW_N : dirW (0, -1) = 0 := by decide
lemma dirN_E : dirN (1, 0) = 0 := by decide
lemma dirN_S : dirN (0, 1) = 0 := by decide
lemma dirN_W : dirN (-1, 0) = 0 := by decide
lemma dirN_N : dirN (0, -1) = 1 := by decide
lemma dirS_E : dirS (1, 0) = 0 := by decide
lemma dirS_S : dirS (0, 1) = 1 := by decide
lemma dirS_W : dirS (-1, 0) = 0 := by decide
lemma dirS_N : dirS (0, -1) = 0 := by decide

/-- One loop iteration preserves `C3Inv`. -/
lemma walkStep_c3inv {members : Finset Point} {start : Point} {s : WalkState}
    (hmem : ∀ p ∈ members, p.1 < 1000 ∧ p.2 < 1000)
    (hstart : start ∈ members) (hmin : ∀ q ∈ members, lexLE start q)
    (hinv : C3Inv members start s) :
    ∃ s', walkStep members s = some s' ∧ C3Inv members start s' := by
  obtain ⟨hwi, hhead, nE, nW, nN, nS, hx, hy, hub, hinit, _⟩ := hinv
  obtain ⟨s', hstep, hwi', hpush, hE, hS, hW, hN⟩ := walkStep_inv hmem hwi
  refine ⟨s', hstep, hwi', ?_, nE + dirE s.dir, nW + dirW s.dir,
    nN + dirN s.dir, nS + dirS s.dir, ?_, ?_, ?_, ?_, ?_⟩
  · -- the head of the vertex list is preserved
    rcases hpush with ⟨_, hv⟩ | ⟨_, hv⟩
    · rw [hv]; exact hhead
    · rw [hv]
      rcases hv0 : s.verts with _ | ⟨v0, vt⟩
      · rw [hv0] at hhead; cases hhead
      · rw [hv0] at hhead
        simpa using hhead
  · -- x displacement
    rcases hwi.1 with hd | hd | hd | hd
    · have hc1 : s'.cur.1 = s.cur.1 + 1 := by rw [hE hd]
      rw [hd, dirE_E, dirW_E]
      omega
    · have hc1 : s'.cur.1 = s.cur.1 := by rw [hS hd]
      rw [hd, dirE_S, dirW_S]
      omega
    · obtain ⟨h0, hc⟩ := hW hd
      have hc1 : s'.cur.1 = s.cur.1 - 1 := by rw [hc]
      rw [hd, dirE_W, dirW_W]
      omega
    · obtain ⟨h0, hc⟩ := hN hd
      have hc1 : s'.cur.1 = s.cur.1 := by rw [hc]
      rw [hd, dirE_N, dirW_N]
      omega
  · -- y displacement
    rcases hwi.1 with hd | hd | hd | hd
    · have hc2 : s'.cur.2 = s.cur.2 := by rw [hE hd]
      rw [hd, dirN_E, dirS_E]
      omega
    · have hc2 : s'.cur.2 = s.cur.2 + 1 := by rw [hS hd]
      rw [hd, dirN_S, dirS_S]
      omega
    · obtain ⟨h0, hc⟩ := hW hd
      have hc2 : s'.cur.2 = s.cur.2 := by rw [hc]
      rw [hd, dirN_W, dirS_W]
      omega
    · obtain ⟨h0, hc⟩ := hN hd
      have hc2 : s'.cur.2 = s.cur.2 - 1 := by rw [hc]
      rw [hd, dirN_N, dirS_N]
      omega
  · -- the used-direction bound
    have hb := usedBound_step nE nW nN nS hwi.1 hwi'.1
    rcases hpush with ⟨hdeq, hv⟩ | ⟨hdne, hv⟩
    · rw [hv, hdeq]
      rw [if_pos hdeq, hdeq] at hb
      omega
    · rw [hv, List.length_append]
      rw [if_neg hdne] at hb
      simp only [List.length_cons, List.length_nil]
      omega
  · -- a zero East counter still means the initial state
    intro h0
    exfalso
    rcases hwi.1 with hd | hd | hd | hd
    · rw [hd, dirE_E] at h0
      omega
    · obtain ⟨_, _, _, _, hdir, _⟩ := hinit (by rw [hd, dirE_S] at h0; omega)
      rw [hdir] at hd
      exact absurd hd (by decide)
    · obtain ⟨_, _, _, _, hdir, _⟩ := hinit (by rw [hd, dirE_W] at h0; omega)
      rw [hdir] at hd
      exact absurd hd (by decide)
    · obtain ⟨_, _, _, _, hdir, _⟩ := hinit (by rw [hd, dirE_N] at h0; omega)
      rw [hdir] at hd
      exact absurd hd (by decide)
  · -- a return to the start corner has just pushed it
    intro harr hlen
    obtain ⟨hdN, hdir', hverts'⟩ :=
      walkStep_arrival hmem hstart hmin hwi hstep harr
    have hNE : 1 ≤ nE := by
      by_contra h0
      obtain ⟨_, _, _, _, hdir, _⟩ := hinit (by omega)
      rw [hdir] at hdN
      exact absurd hdN (by decide)
    refine ⟨by rw [hverts']; simp, ?_, ?_⟩
    · rw [hdN, dirN_N]
      omega
    · rw [hverts', List.length_append]
      rw [hdN, hdir', dirE_N, dirW_N, dirN_N, dirS_N]
      rw [hdN] at hub
      simp only [List.length_cons, List.length_nil]
      unfold usedBound at hub ⊢
      rw [dirE_E, dirW_E, dirN_E, dirS_E]
      rw [dirE_N, dirW_N, dirN_N, dirS_N] at hub
      omega

instance (a b : Point) : Decidable (lexLE a b) := by
  unfold lexLE
  infer_instance

/-- The closure and length properties hold of any vertex list the loop
returns from a state satisfying `C3Inv`. -/
lemma get_verts_loop_c3 {members : Finset Point} {start : Point}
    (hmem : ∀ p ∈ members, p.1 < 1000 ∧ p.2 < 1000)
    (hstart : start ∈ members) (hmin : ∀ q ∈ members, lexLE start q) :
    ∀ fuel (s : WalkState) (vs : List Point), C3Inv members start s →
      get_verts_loop members fuel s = .done vs →
      vs.head? = some start ∧ vs.getLast? = some start ∧ 5 ≤ vs.length := by
  intro fuel
  induction fuel with
  | zero =>
    intro s vs _ h
    cases h
  | succ n ih =>
    intro s vs hinv hrun
    obtain ⟨cur, dir, verts⟩ := s
    rcases verts with _ | ⟨v0, vt⟩
    · have := hinv.2.1
      cases this
    rw [get_verts_loop_succ] at hrun
    by_cases hbr : cur = v0 ∧ 1 < (v0 :: vt).length
    · rw [if_pos hbr] at hrun
      injection hrun with h
      subst h
      obtain ⟨hwi, hhead, nE, nW, nN, nS, hx, hy, hub, hinit, hbonus⟩ := hinv
      dsimp only at hhead hx hy hub hinit hbonus
      have hv0 : v0 = start := by simpa using hhead
      have hcurstart : cur = start := by rw [hbr.1, hv0]
      obtain ⟨hlast, hnN, hub2⟩ := hbonus hcurstart hbr.2
      refine ⟨by simpa using hv0, hlast, ?_⟩
      have hNE : 1 ≤ nE := by
        by_contra h0
        obtain ⟨_, _, _, _, _, hverts⟩ := hinit (by omega)
        rw [hverts] at hbr
        have := hbr.2
        simp at this
      have hnW : 1 ≤ nW := by rw [hcurstart] at hx; omega
      have hnS : 1 ≤ nS := by rw [hcurstart] at hy; omega
      unfold usedBound at hub2
      omega
    · rw [if_neg hbr] at hrun
      obtain ⟨s', hstep, hinv'⟩ := walkStep_c3inv hmem hstart hmin hinv
      rw [hstep] at hrun
      exact ih s' vs hinv' hrun

/-- Claim C3 (amended).  For every region whose members lie within the
grid and whose start cell is the scan-order first member - as holds for
every region produced by floodfill_all, see `floodfill_all_start_min` -
every vertex list returned by get_verts has equal first and last
elements and length at least five (minimum case: a single cell yields
the five corners of its unit square).  The claim as literally stated,
for an arbitrary member as start, is refuted by
`get_verts_open_counterexample`. -/
theorem get_verts_closed_loop (r : Region) (fuel : Nat) (vs : List Point)
    (hmem : ∀ p ∈ r.members, p.1 < 1000 ∧ p.2 < 1000)
    (hstart : r.start ∈ r.members)
    (hmin : ∀ q ∈ r.members, lexLE r.start q)
    (hrun : get_verts fuel r = TraceResult.done vs) :
    vs.head? = some r.start ∧ vs.getLast? = some r.start ∧ 5 ≤ vs.length := by
  apply get_verts_loop_c3 hmem hstart hmin fuel _ vs _ hrun
  obtain ⟨hb1, hb2⟩ := hmem _ hstart
  refine ⟨⟨Or.inl rfl, by dsimp only; omega, by dsimp only; omega,
      r.start, modify_E _, hstart⟩,
    rfl, 0, 0, 0, 0, rfl, rfl, ?_, ?_, ?_⟩
  · show usedBound 0 0 0 0 (1, 0) ≤ 1
    decide
  · intro _
    exact ⟨rfl, rfl, rfl, rfl, rfl, rfl⟩
  · intro _ hlen
    simp at hlen

/-- Witness for the amended C3: the single-cell region at the origin
traces the unit square. -/
theorem get_verts_closed_loop_witness :
    (∀ p ∈ (⟨((0 : Nat), (0 : Nat)), {((0 : Nat), (0 : Nat))}⟩ : Region).members,
      p.1 < 1000 ∧ p.2 < 1000) ∧
    (⟨((0 : Nat), (0 : Nat)), {((0 : Nat), (0 : Nat))}⟩ : Region).start ∈
      (⟨((0 : Nat), (0 : Nat)), {((0 : Nat), (0 : Nat))}⟩ : Region).members ∧
    (∀ q ∈ (⟨((0 : Nat), (0 : Nat)), {((0 : Nat), (0 : Nat))}⟩ : Region).members,
      lexLE ((0 : Nat), (0 : Nat)) q) ∧
    get_verts 20 ⟨((0 : Nat), (0 : Nat)), {((0 : Nat), (0 : Nat))}⟩ =
      TraceResult.done [(0, 0), (1, 0), (1, 1), (0, 1), (0, 0)] ∧
    ([((0 : Nat), (0 : Nat)), (1, 0), (1, 1), (0, 1), (0, 0)].head? =
        some ((0 : Nat), (0 : Nat)) ∧
      [((0 : Nat), (0 : Nat)), (1, 0), (1, 1), (0, 1), (0, 0)].getLast? =
        some ((0 : Nat), (0 : Nat)) ∧
      5 ≤ [((0 : Nat), (0 : Nat)), (1, 0), (1, 1), (0, 1), (0, 0)].length) :=
  ⟨by decide, by decide, by decide, by decide,
    get_verts_closed_loop ⟨((0 : Nat), (0 : Nat)), {((0 : Nat), (0 : Nat))}⟩ 20
      [(0, 0), (1, 0), (1, 1), (0, 1), (0, 0)]
      (by decide) (by decide) (by decide) (by decide)⟩

/-- Counterexample to claim C3 as stated: the two-cell region with both
cells solid and start at the second cell in scan order is non-empty and
has its start among its members, yet the returned vertex list is open -
its first element is the start corner and its last element is a
different corner. -/
theorem get_verts_open_counterexample :
    (⟨((1 : Nat), (0 : Nat)), {((0 : Nat), (0 : Nat)), ((1 : Nat), (0 : Nat))}⟩ :
      Region).members.Nonempty ∧
    (⟨((1 : Nat), (0 : Nat)), {((0 : Nat), (0 : Nat)), ((1 : Nat), (0 : Nat))}⟩ :
      Region).start ∈
      (⟨((1 : Nat), (0 : Nat)), {((0 : Nat), (0 : Nat)), ((1 : Nat), (0 : Nat))}⟩ :
        Region).members ∧
    get_verts 20
        ⟨((1 : Nat), (0 : Nat)), {((0 : Nat), (0 : Nat)), ((1 : Nat), (0 : Nat))}⟩ =
      TraceResult.done [(1, 0), (2, 0), (2, 1), (0, 1), (0, 0)] ∧
    [((1 : Nat), (0 : Nat)), (2, 0), (2, 1), (0, 1), (0, 0)].head? ≠
      [((1 : Nat), (0 : Nat)), (2, 0), (2, 1), (0, 1), (0, 0)].getLast? := by
  refine ⟨⟨((0 : Nat), (0 : Nat)), by decide⟩, by decide, by decide, by decide⟩

/-! ## Claim C5: the stopping rule of the walk -/

/-- The break condition at the top of the `get_verts` loop: the current
corner equals the first recorded vertex and more than one vertex has
been recorded. -/
def breakCond (s : WalkState) : Prop :=
  s.verts.head? = some s.cur ∧ 1 < s.verts.length

instance (s : WalkState) : Decidable (breakCond s) := by
  unfold breakCond
  infer_instance

/-- Pure iteration of the loop body: `iterWalk n s` is the loop-head
state after `n` iterations, provided the break condition did not hold at
any earlier loop head and no step panicked. -/
def iterWalk (members : Finset Point) : Nat → WalkState → Option WalkState
  | 0, s => some s
  | n + 1, s =>
    if breakCond s then none
    else
      match walkStep members s with
      | none => none
      | some s' => iterWalk members n s'

lemma iterWalk_no_early_break (members : Finset Point) :
    ∀ n (s sn : WalkState), iterWalk members n s = some sn →
      ∀ m (sm : WalkState), m < n → iterWalk members m s = some sm →
      ¬ breakCond sm := by
  intro n
  induction n with
  | zero =>
    intro s sn _ m sm hm
    omega
  | succ k ih =>
    intro s sn hrun m sm hm hrunm
    unfold iterWalk at hrun
    by_cases hbr : breakCond s
    · rw [if_pos hbr] at hrun
      cases hrun
    rw [if_neg hbr] at hrun
    rcases hws : walkStep members s with _ | s'
    · rw [hws] at hrun
      cases hrun
    rw [hws] at hrun
    match m, hrunm with
    | 0, hrunm =>
      have h0 : sm = s := by
        have h1 : some s = some sm := hrunm
        injection h1 with h1
        exact h1.symm
      rw [h0]
      exact hbr
    | m' + 1, hrunm =>
      unfold iterWalk at hrunm
      rw [if_neg hbr, hws] at hrunm
      exact ih s' sn hrun m' sm (by omega) hrunm

/-- A completed run of the loop is exactly an iteration that first hits
the break condition. -/
lemma get_verts_loop_iter (members : Finset Point) :
    ∀ fuel (s : WalkState) (vs : List Point),
      get_verts_loop members fuel s = TraceResult.done vs →
      ∃ n sn, n < fuel ∧ iterWalk members n s = some sn ∧
        breakCond sn ∧ vs = sn.verts := by
  intro fuel
  induction fuel with
  | zero =>
    intro s vs h
    cases h
  | succ n ih =>
    intro s vs hrun
    obtain ⟨cur, dir, verts⟩ := s
    rcases verts with _ | ⟨v0, vt⟩
    · cases hrun
    rw [get_verts_loop_succ] at hrun
    by_cases hbr : cur = v0 ∧ 1 < (v0 :: vt).length
    · rw [if_pos hbr] at hrun
      injection hrun with h
      refine ⟨0, _, by omega, rfl, ⟨?_, ?_⟩, h.symm⟩
      · dsimp only
        rw [hbr.1]
        simp
      · exact hbr.2
    · rw [if_neg hbr] at hrun
      rcases hws : walkStep members ⟨cur, dir, v0 :: vt⟩ with _ | s'
      · rw [hws] at hrun
        cases hrun
      rw [hws] at hrun
      obtain ⟨m, sn, hm, hiter, hbrk, hvs⟩ := ih s' vs hrun
      refine ⟨m + 1, sn, by omega, ?_, hbrk, hvs⟩
      unfold iterWalk
      rw [if_neg ?_, hws]
      · exact hiter
      · intro hc
        obtain ⟨hc1, hc2⟩ := hc
        dsimp only at hc1 hc2
        apply hbr
        constructor
        · have : some v0 = some cur := by simpa using hc1
          injection this with h2
          exact h2.symm
        · simpa using hc2

/-- Claim C5 (amended).  The walk starts at the top-left lattice corner
of the start cell heading East, with that corner as its first recorded
vertex (this is the initial state passed to the loop below).  Whenever
get_verts returns a vertex list, the loop has stopped at the first loop
head at which the current corner again equals the first recorded vertex
with more than one vertex recorded - which requires at least one step -
so a single closed loop is traced per invocation.  Termination itself is
not guaranteed by the stated precondition: see
`get_verts_divergence_counterexample`. -/
theorem get_verts_stops_at_first_revisit (r : Region) (fuel : Nat)
    (vs : List Point) (hrun : get_verts fuel r = TraceResult.done vs) :
    ∃ n sn, n < fuel ∧ 1 ≤ n ∧
      iterWalk r.members n ⟨r.start, (1, 0), [r.start]⟩ = some sn ∧
      breakCond sn ∧ vs = sn.verts ∧
      ∀ m (sm : WalkState), m < n →
        iterWalk r.members m ⟨r.start, (1, 0), [r.start]⟩ = some sm →
        ¬ breakCond sm := by
  obtain ⟨n, sn, hn, hiter, hbrk, hvs⟩ :=
    get_verts_loop_iter r.members fuel ⟨r.start, (1, 0), [r.start]⟩ vs hrun
  have hn1 : 1 ≤ n := by
    rcases n with _ | n'
    · exfalso
      have : sn = ⟨r.start, (1, 0), [r.start]⟩ := by
        have : some (⟨r.start, (1, 0), [r.start]⟩ : WalkState) = some sn := hiter
        injection this with h
        exact h.symm
      rw [this] at hbrk
      have := hbrk.2
      simp at this
    · omega
  exact ⟨n, sn, hn, hn1, hiter, hbrk, hvs,
    fun m sm hm hrunm => iterWalk_no_early_break r.members n _ sn hiter m sm hm hrunm⟩

/-- Witness for the amended C5 at the single-cell region. -/
theorem get_verts_stops_at_first_revisit_witness :
    get_verts 20 ⟨((0 : Nat), (0 : Nat)), {((0 : Nat), (0 : Nat))}⟩ =
      TraceResult.done [(0, 0), (1, 0), (1, 1), (0, 1), (0, 0)] ∧
    ∃ n sn, n < 20 ∧ 1 ≤ n ∧
      iterWalk {((0 : Nat), (0 : Nat))} n
        ⟨((0 : Nat), (0 : Nat)), (1, 0), [((0 : Nat), (0 : Nat))]⟩ = some sn ∧
      breakCond sn ∧
      [((0 : Nat), (0 : Nat)), (1, 0), (1, 1), (0, 1), (0, 0)] = sn.verts ∧
      ∀ m (sm : WalkState), m < n →
        iterWalk {((0 : Nat), (0 : Nat))} m
          ⟨((0 : Nat), (0 : Nat)), (1, 0), [((0 : Nat), (0 : Nat))]⟩ = some sm →
        ¬ breakCond sm :=
  ⟨by decide,
    get_verts_stops_at_first_revisit
      ⟨((0 : Nat), (0 : Nat)), {((0 : Nat), (0 : Nat))}⟩ 20
      [(0, 0), (1, 0), (1, 1), (0, 1), (0, 0)] (by decide)⟩

/-- The 2 by 2 block of solid cells with the walk seeded at its bottom
right cell: the start corner is the interior lattice point of the block,
so the walk never returns to it. -/
def blockRegion : Region :=
  ⟨((1 : Nat), (1 : Nat)),
    {((0 : Nat), (0 : Nat)), ((1 : Nat), (0 : Nat)),
     ((0 : Nat), (1 : Nat)), ((1 : Nat), (1 : Nat))}⟩

/-- The eight loop-head states of the endless outer circuit that the
walk of `blockRegion` falls into. -/
def blockCycle (pd : Point × Dir) : Prop :=
  pd = ((2, 1), (0, 1)) ∨ pd = ((2, 2), (-1, 0)) ∨ pd = ((1, 2), (-1, 0)) ∨
  pd = ((0, 2), (0, -1)) ∨ pd = ((0, 1), (0, -1)) ∨ pd = ((0, 0), (1, 0)) ∨
  pd = ((1, 0), (1, 0)) ∨ pd = ((2, 0), (0, 1))

lemma block_no_done :
    ∀ fuel (s : WalkState), blockCycle (s.cur, s.dir) →
      s.verts.head? = some ((1 : Nat), (1 : Nat)) →
      ∀ vs, get_verts_loop blockRegion.members fuel s ≠ TraceResult.done vs := by
  intro fuel
  induction fuel with
  | zero =>
    intro s _ _ vs h
    cases h
  | succ n ih =>
    intro s hcyc hhead vs hrun
    obtain ⟨cur, dir, verts⟩ := s
    rcases verts with _ | ⟨v0, vt⟩
    · cases hhead
    dsimp only at hcyc hhead
    have hv0 : v0 = ((1 : Nat), (1 : Nat)) := by simpa using hhead
    rw [get_verts_loop_succ] at hrun
    rcases hcyc with hpd | hpd | hpd | hpd | hpd | hpd | hpd | hpd <;>
      (injection hpd with hc hd) <;> subst hc <;> subst hd <;>
      rw [if_neg (by rw [hv0]; intro hc; exact absurd hc.1 (by decide))] at hrun
    · rw [show walkStep blockRegion.members ⟨(2, 1), (0, 1), v0 :: vt⟩ =
          some ⟨(2, 2), (-1, 0), (v0 :: vt) ++ [(2, 2)]⟩ from by
            simp only [walkStep]
            rw [show add_dir (2, 1) (0, 1) = ((2 : Nat), (2 : Nat)) from by decide]
            rw [show walk_decide blockRegion.members (2, 2) (0, 1) =
              some ((-1, 0), true) from by decide]
            rfl] at hrun
      exact ih _ (by rw [show ((⟨(2, 2), (-1, 0), (v0 :: vt) ++ [(2, 2)]⟩ :
          WalkState).cur, (⟨(2, 2), (-1, 0), (v0 :: vt) ++ [(2, 2)]⟩ :
          WalkState).dir) = (((2 : Nat), (2 : Nat)), ((-1 : Int), (0 : Int)))
          from rfl]; unfold blockCycle; tauto)
        (by rw [hv0]; simp) vs hrun
    · rw [show walkStep blockRegion.members ⟨(2, 2), (-1, 0), v0 :: vt⟩ =
          some ⟨(1, 2), (-1, 0), v0 :: vt⟩ from by
            simp only [walkStep]
            rw [show add_dir (2, 2) (-1, 0) = ((1 : Nat), (2 : Nat)) from by decide]
            rw [show walk_decide blockRegion.members (1, 2) (-1, 0) =
              some ((-1, 0), false) from by decide]
            rfl] at hrun
      exact ih _ (by unfold blockCycle; tauto) (by rw [hv0]; simp) vs hrun
    · rw [show walkStep blockRegion.members ⟨(1, 2), (-1, 0), v0 :: vt⟩ =
          some ⟨(0, 2), (0, -1), (v0 :: vt) ++ [(0, 2)]⟩ from by
            simp only [walkStep]
            rw [show add_dir (1, 2) (-1, 0) = ((0 : Nat), (2 : Nat)) from by decide]
            rw [show walk_decide blockRegion.members (0, 2) (-1, 0) =
              some ((0, -1), true) from by decide]
            rfl] at hrun
      exact ih _ (by unfold blockCycle; tauto) (by rw [hv0]; simp) vs hrun
    · rw [show walkStep blockRegion.members ⟨(0, 2), (0, -1), v0 :: vt⟩ =
          some ⟨(0, 1), (0, -1), v0 :: vt⟩ from by
            simp only [walkStep]
            rw [show add_dir (0, 2) (0, -1) = ((0 : Nat), (1 : Nat)) from by decide]
            rw [show walk_decide blockRegion.members (0, 1) (0, -1) =
              some ((0, -1), false) from by decide]
            rfl] at hrun
      exact ih _ (by unfold blockCycle; tauto) (by rw [hv0]; simp) vs hrun
    · rw [show walkStep blockRegion.members ⟨(0, 1), (0, -1), v0 :: vt⟩ =
          some ⟨(0, 0), (1, 0), (v0 :: vt) ++ [(0, 0)]⟩ from by
            simp only [walkStep]
            rw [show add_dir (0, 1) (0, -1) = ((0 : Nat), (0 : Nat)) from by decide]
            rw [show walk_decide blockRegion.members (0, 0) (0, -1) =
              some ((1, 0), true) from by decide]
            rfl] at hrun
      exact ih _ (by unfold blockCycle; tauto) (by rw [hv0]; simp) vs hrun
    · rw [show walkStep blockRegion.members ⟨(0, 0), (1, 0), v0 :: vt⟩ =
          some ⟨(1, 0), (1, 0), v0 :: vt⟩ from by
            simp only [walkStep]
            rw [show add_dir (0, 0) (1, 0) = ((1 : Nat), (0 : Nat)) from by decide]
            rw [show walk_decide blockRegion.members (1, 0) (1, 0) =
              some ((1, 0), false) from by decide]
            rfl] at hrun
      exact ih _ (by unfold blockCycle; tauto) (by rw [hv0]; simp) vs hrun
    · rw [show walkStep blockRegion.members ⟨(1, 0), (1, 0), v0 :: vt⟩ =
          some ⟨(2, 0), (0, 1), (v0 :: vt) ++ [(2, 0)]⟩ from by
            simp only [walkStep]
            rw [show add_dir (1, 0) (1, 0) = ((2 : Nat), (0 : Nat)) from by decide]
            rw [show walk_decide blockRegion.members (2, 0) (1, 0) =
              some ((0, 1), true) from by decide]
            rfl] at hrun
      exact ih _ (by unfold blockCycle; tauto) (by rw [hv0]; simp) vs hrun
    · rw [show walkStep blockRegion.members ⟨(2, 0), (0, 1), v0 :: vt⟩ =
          some ⟨(2, 1), (0, 1), v0 :: vt⟩ from by
            simp only [walkStep]
            rw [show add_dir (2, 0) (0, 1) = ((2 : Nat), (1 : Nat)) from by decide]
            rw [show walk_decide blockRegion.members (2, 1) (0, 1) =
              some ((0, 1), false) from by decide]
            rfl] at hrun
      exact ih _ (by unfold blockCycle; tauto) (by rw [hv0]; simp) vs hrun

instance (a b : Point) : Decidable (Adj a b) := by
  unfold Adj
  infer_instance

/-- Counterexample to claim C5 as stated: the 2 by 2 block with start at
its bottom-right cell satisfies the stated precondition (non-empty,
4-connected membership containing the start), yet the walk never
terminates: its start corner is the interior lattice point, which the
boundary circuit never revisits. -/
theorem get_verts_divergence_counterexample :
    blockRegion.members.Nonempty ∧
    blockRegion.start ∈ blockRegion.members ∧
    Connected4 blockRegion.members ∧
    ∀ fuel vs, get_verts fuel blockRegion ≠ TraceResult.done vs := by
  refine ⟨⟨((0 : Nat), (0 : Nat)), by decide⟩, by decide, ?_, ?_⟩
  · -- 4-connectivity of the block
    have p00_10 : PathWithin blockRegion.members (0, 0) (1, 0) :=
      Relation.ReflTransGen.single ⟨by decide, by decide⟩
    have p00_01 : PathWithin blockRegion.members (0, 0) (0, 1) :=
      Relation.ReflTransGen.single ⟨by decide, by decide⟩
    have p10_00 : PathWithin blockRegion.members (1, 0) (0, 0) :=
      Relation.ReflTransGen.single ⟨by decide, by decide⟩
    have p10_11 : PathWithin blockRegion.members (1, 0) (1, 1) :=
      Relation.ReflTransGen.single ⟨by decide, by decide⟩
    have p01_00 : PathWithin blockRegion.members (0, 1) (0, 0) :=
      Relation.ReflTransGen.single ⟨by decide, by decide⟩
    have p01_11 : PathWithin blockRegion.members (0, 1) (1, 1) :=
      Relation.ReflTransGen.single ⟨by decide, by decide⟩
    have p11_10 : PathWithin blockRegion.members (1, 1) (1, 0) :=
      Relation.ReflTransGen.single ⟨by decide, by decide⟩
    have p11_01 : PathWithin blockRegion.members (1, 1) (0, 1) :=
      Relation.ReflTransGen.single ⟨by decide, by decide⟩
    intro a ha b hb
    fin_cases ha <;> fin_cases hb
    · exact Relation.ReflTransGen.refl
    · exact p00_10
    · exact p00_01
    · exact p00_10.trans p10_11
    · exact p10_00
    · exact Relation.ReflTransGen.refl
    · exact p10_00.trans p00_01
    · exact p10_11
    · exact p01_00
    · exact p01_00.trans p00_10
    · exact Relation.ReflTransGen.refl
    · exact p01_11
    · exact p11_10.trans p10_00
    · exact p11_10
    · exact p11_01
    · exact Relation.ReflTransGen.refl
  · -- divergence: after one step the walk enters the endless circuit
    intro fuel vs
    unfold get_verts
    rcases fuel with _ | n
    · intro h
      cases h
    rw [get_verts_loop_succ]
    rw [if_neg (by intro hc; have := hc.2; simp at this)]
    rw [show walkStep blockRegion.members
        ⟨blockRegion.start, (1, 0), [blockRegion.start]⟩ =
        some ⟨(2, 1), (0, 1), [blockRegion.start] ++ [(2, 1)]⟩ from by
          simp only [walkStep]
          rw [show add_dir blockRegion.start (1, 0) = ((2 : Nat), (1 : Nat))
            from by decide]
          rw [show walk_decide blockRegion.members (2, 1) (1, 0) =
            some ((0, 1), true) from by decide]
          rfl]
    exact block_no_done n _ (by unfold blockCycle; tauto) (by decide) vs

/-- Claim C6.  The 13-cell plus-star region centred at cell (2, 2) with
start cell (2, 0) traces exactly the 21-vertex clockwise outline of the
source star test, 20 edges with explicit closure. -/
theorem get_verts_star :
    get_verts 60 ⟨((2 : Nat), (0 : Nat)),
      {((2 : Nat), (0 : Nat)),
       (1, 1), (2, 1), (3, 1),
       (0, 2), (1, 2), (2, 2), (3, 2), (4, 2),
       (1, 3), (2, 3), (3, 3),
       (2, 4)}⟩ =
      TraceResult.done
        [(2, 0), (3, 0), (3, 1), (4, 1), (4, 2), (5, 2),
         (5, 3), (4, 3), (4, 4), (3, 4), (3, 5), (2, 5),
         (2, 4), (1, 4), (1, 3), (0, 3), (0, 2), (1, 2),
         (1, 1), (2, 1), (2, 0)] := by decide

/-! ## Concrete grids for the witnesses -/

/-- A grid whose only solid cell is `(0, 0)`, made of rock. -/
def tilesA : Nat → Nat → Tile := fun y x =>
  if x = 0 ∧ y = 0 then Tile.Rock else Tile.Air

/-- The same solidity pattern as `tilesA`, with iron instead of rock. -/
def tilesB : Nat → Nat → Tile := fun y x =>
  if x = 0 ∧ y = 0 then Tile.Iron else Tile.Air

lemma tilesA_solid {p : Point} :
    (lookup tilesA p).is_solid = true ↔ p = ((0 : Nat), (0 : Nat)) := by
  obtain ⟨a, b⟩ := p
  unfold lookup tilesA
  dsimp only
  by_cases h : a = 0 ∧ b = 0
  · rw [if_pos h]
    simp only [Prod.mk.injEq]
    constructor
    · intro _
      exact ⟨h.1, h.2⟩
    · intro _
      rfl
  · rw [if_neg h]
    simp only [Prod.mk.injEq]
    constructor
    · intro hc
      cases hc
    · intro hc
      exact absurd ⟨hc.1, hc.2⟩ h

/-- A fold of the scan that already covers every solid cell adds no
further regions. -/
lemma scan_fold_stable (tiles : Nat → Nat → Tile) (R : List Region)
    (hcov : ∀ p : Point, (lookup tiles p).is_solid = true →
      ∃ r ∈ R, p ∈ r.members) :
    ∀ L : List Point, L.foldl (scan_step tiles) R = R := by
  intro L
  induction L with
  | nil => rfl
  | cons p L' ih =>
    rw [List.foldl_cons]
    have h : scan_step tiles R p = R := by
      unfold scan_step
      rw [if_neg]
      rintro ⟨hs, hall⟩
      obtain ⟨r, hr, hm⟩ := hcov p hs
      exact hall r hr hm
    rw [h]
    exact ih

lemma floodfill_tilesA :
    (floodfill_all tilesA).regions = [fill ((0 : Nat), (0 : Nat)) tilesA] := by
  obtain ⟨T, hT⟩ := scanPoints_cons
  rw [floodfill_all_regions, hT, List.foldl_cons]
  have hstep : scan_step tilesA [] ((0 : Nat), (0 : Nat)) =
      [fill ((0 : Nat), (0 : Nat)) tilesA] := by
    unfold scan_step
    rw [if_pos ⟨by decide, by simp⟩]
    simp
  rw [hstep]
  apply scan_fold_stable
  intro p hs
  rw [tilesA_solid] at hs
  subst hs
  exact ⟨fill ((0 : Nat), (0 : Nat)) tilesA, by simp, by decide⟩

/-- Witness for C1 at the one-solid-cell grid. -/
theorem floodfill_all_partitions_witness :
    (∀ p : Point,
      (∃ r ∈ (floodfill_all tilesA).regions, p ∈ r.members) ↔
        p.1 < 1000 ∧ p.2 < 1000 ∧ (lookup tilesA p).is_solid = true) ∧
    List.Pairwise (fun r1 r2 => Disjoint r1.members r2.members)
      (floodfill_all tilesA).regions :=
  floodfill_all_partitions tilesA

/-- Witness for C2 at the one-solid-cell grid. -/
theorem floodfill_all_connected_witness :
    fill ((0 : Nat), (0 : Nat)) tilesA ∈ (floodfill_all tilesA).regions ∧
    ((fill ((0 : Nat), (0 : Nat)) tilesA).start ∈
        (fill ((0 : Nat), (0 : Nat)) tilesA).members ∧
      ∀ p ∈ (fill ((0 : Nat), (0 : Nat)) tilesA).members,
        PathWithin (fill ((0 : Nat), (0 : Nat)) tilesA).members
          (fill ((0 : Nat), (0 : Nat)) tilesA).start p) := by
  have hmem : fill ((0 : Nat), (0 : Nat)) tilesA ∈ (floodfill_all tilesA).regions := by
    rw [floodfill_tilesA]
    simp
  exact ⟨hmem, floodfill_all_connected tilesA _ hmem⟩

/-- Witness for C10 at the one-solid-cell grid. -/
theorem floodfill_all_start_min_witness :
    fill ((0 : Nat), (0 : Nat)) tilesA ∈ (floodfill_all tilesA).regions ∧
    ((fill ((0 : Nat), (0 : Nat)) tilesA).start ∈
        (fill ((0 : Nat), (0 : Nat)) tilesA).members ∧
      (∀ q ∈ (fill ((0 : Nat), (0 : Nat)) tilesA).members,
        lexLE (fill ((0 : Nat), (0 : Nat)) tilesA).start q) ∧
      ((fill ((0 : Nat), (0 : Nat)) tilesA).start.1,
        wsub (fill ((0 : Nat), (0 : Nat)) tilesA).start.2) ∉
        (fill ((0 : Nat), (0 : Nat)) tilesA).members ∧
      (wsub (fill ((0 : Nat), (0 : Nat)) tilesA).start.1,
        wsub (fill ((0 : Nat), (0 : Nat)) tilesA).start.2) ∉
        (fill ((0 : Nat), (0 : Nat)) tilesA).members ∧
      solidAt (fill ((0 : Nat), (0 : Nat)) tilesA).members
        (fill ((0 : Nat), (0 : Nat)) tilesA).start (1, 0) = some true) := by
  have hmem : fill ((0 : Nat), (0 : Nat)) tilesA ∈ (floodfill_all tilesA).regions := by
    rw [floodfill_tilesA]
    simp
  exact ⟨hmem, floodfill_all_start_min tilesA _ hmem⟩

/-- Witness for C8: two grids with the same solidity but different solid
tile kinds produce identical region lists. -/
theorem floodfill_all_deterministic_witness :
    (∀ x y, x < 1000 → y < 1000 →
      (tilesA y x).is_solid = (tilesB y x).is_solid) ∧
    (floodfill_all tilesA).regions = (floodfill_all tilesB).regions := by
  have h : ∀ x y, x < 1000 → y < 1000 →
      (tilesA y x).is_solid = (tilesB y x).is_solid := by
    intro x y _ _
    unfold tilesA tilesB
    by_cases hxy : x = 0 ∧ y = 0
    · rw [if_pos hxy, if_pos hxy]
      decide
    · rw [if_neg hxy, if_neg hxy]
  exact ⟨h, floodfill_all_deterministic tilesA tilesB h⟩

end Deeper

namespace Deeper

/-- Doubled signed shoelace sum of a vertex list, summed over adjacent
pairs; the enclosed area of a closed polygon is half its absolute value. -/
def shoelace2 : List Point → Int
  | p :: q :: tl => ((p.1 : Int) * q.2 - (q.1 : Int) * p.2) + shoelace2 (q :: tl)
  | _ => 0

-- Scratch sanity checks of the embedding against the source test fixtures.
example :
    get_verts 30 ⟨(0, 0), {(0, 0)}⟩ =
      .done [(0, 0), (1, 0), (1, 1), (0, 1), (0, 0)] := by decide

example :
    get_verts 30 ⟨(0, 0), {(0, 0), (1, 0), (2, 0)}⟩ =
      .done [(0, 0), (3, 0), (3, 1), (0, 1), (0, 0)] := by decide

example :
    get_verts 30 ⟨(0, 0), {(0, 0), (0, 1), (0, 2)}⟩ =
      .done [(0, 0), (1, 0), (1, 3), (0, 3), (0, 0)] := by decide

example :
    get_verts 60 ⟨(2, 0),
      {(2, 0),
       (1, 1), (2, 1), (3, 1),
       (0, 2), (1, 2), (2, 2), (3, 2), (4, 2),
       (1, 3), (2, 3), (3, 3),
       (2, 4)}⟩ =
      .done [(2, 0), (3, 0), (3, 1), (4, 1), (4, 2), (5, 2),
             (5, 3), (4, 3), (4, 4), (3, 4), (3, 5), (2, 5),
             (2, 4), (1, 4), (1, 3), (0, 3), (0, 2), (1, 2),
             (1, 1), (2, 1), (2, 0)] := by decide

-- Shoelace area equals cell count on each fixture (C7, checked pointwise).
example :
    (shoelace2 [(0, 0), (1, 0), (1, 1), (0, 1), (0, 0)]).natAbs = 2 * 1 := by
  decide

example :
    (shoelace2 [(0, 0), (3, 0), (3, 1), (0, 1), (0, 0)]).natAbs = 2 * 3 := by
  decide

example :
    (shoelace2 [(0, 0), (1, 0), (1, 3), (0, 3), (0, 0)]).natAbs = 2 * 3 := by
  decide

example :
    (shoelace2 [(2, 0), (3, 0), (3, 1), (4, 1), (4, 2), (5, 2),
                (5, 3), (4, 3), (4, 4), (3, 4), (3, 5), (2, 5),
                (2, 4), (1, 4), (1, 3), (0, 3), (0, 2), (1, 2),
                (1, 1), (2, 1), (2, 0)]).natAbs = 2 * 13 := by
  decide

end Deeper
